import Mathlib

/-!
A shallow embedding of the motion-primitive graph search core
(`src/src/graph_search2.cpp` together with the data model declared in
`src/include/motion_primitives/motion_primitive_graph.h`).

Modelling conventions:
* Eigen `VectorXd` (doubles) are modelled as `List ℚ` with exact arithmetic.
* `std::size_t` arithmetic in the hash is modelled as `ℕ` with explicit `% 2^64`.
* `std::unordered_set`/`std::unordered_map` keyed by `VectorXdHash`/quantized
  equality are modelled as lists of raw states (resp. association lists keyed by
  the quantized integer vector); the C++ map's "latest write wins" is realised
  by consing the new binding and looking up the first match.
* `std::priority_queue` pops some minimal-`total_cost` element with unspecified
  tie order; we model one admissible deterministic refinement: a list sorted by
  `total_cost`, new elements inserted after all elements of smaller-or-equal
  cost (FIFO among ties).
* `ros::ok()` (host cancellation) is modelled by a fuel parameter: fuel
  exhaustion is a cancelled search.
* `tbb::parallel_for` in `ExpandPar` is modelled by an explicit schedule: a list
  of `(begin, end)` chunks processed in an arbitrary order, concatenating the
  per-chunk successor buffers (this covers every concatenation order of the
  thread-local buffers).
* The fields `expanded` and `pushed` of `LoopState` are ghost instrumentation:
  they record the nodes passed to the expander and the nodes pushed on the
  queue, and influence nothing (the expansion counter fed to the schedule only
  disambiguates which chunk list a given `ExpandPar` call uses).
-/

/- Batteries marks rational arithmetic `@[irreducible]`; restore the default
reducibility so that concrete runs of the model can be checked by `decide`. -/
unseal Rat.add Rat.mul Rat.sub Rat.inv

namespace MotionPrimitives

/-- C++ `static_cast<int>` on a floating value truncates toward zero. -/
def truncToInt (q : ℚ) : ℤ := if 0 ≤ q then ⌊q⌋ else ⌈q⌉

/-- The quantization applied by `VectorXdHash::operator()` (graph_search2.cpp:29):
`(vd * 100).cast<int>()`, i.e. componentwise truncation toward zero of `state * 100`. -/
def quantize (s : List ℚ) : List ℤ := s.map (fun q => truncToInt (q * 100))

/-- One mixing step of the hash (graph_search2.cpp:34), on `size_t` (mod `2^64`).
`hashInt` stands for the externally supplied `std::hash<int>`. -/
def hashCombine (hashInt : ℤ → ℕ) (seed : ℕ) (x : ℤ) : ℕ :=
  seed ^^^ ((hashInt x + 0x9e3779b9 + (seed <<< 6) + (seed >>> 2)) % 2 ^ 64)

/-- `VectorXdHash::operator()` (graph_search2.cpp:25-37): quantize by
`(vd * 100).cast<int>()` and fold the mixing step from seed 0. -/
def VectorXdHash (hashInt : ℤ → ℕ) (vd : List ℚ) : ℕ :=
  (quantize vd).foldl (hashCombine hashInt) 0

/-- The hash as the spec's §4.2 contract words it (for the refinement
comparison of claim C6): the same fold, but over the integer components of
`floor(state * 100)`. -/
def specHashFloor (hashInt : ℤ → ℕ) (vd : List ℚ) : ℕ :=
  (vd.map (fun q => ⌊q * 100⌋)).foldl (hashCombine hashInt) 0

/-- libstdc++'s `std::hash<int>`: the identity, converted to `size_t`. -/
def stdHashInt (x : ℤ) : ℕ := (x % (2 ^ 64 : ℤ)).toNat

/-- `MotionPrimitive` (motion_primitive_graph.h:12-48). -/
structure MotionPrimitive where
  id : ℤ := 0
  cost : ℚ := 0
  traj_time : ℚ := 0
  spatial_dim : ℕ := 0
  start_state : List ℚ := []
  end_state : List ℚ := []
  poly_coeffs : List (List ℚ) := []
deriving DecidableEq, Repr, Inhabited

/-- Modelled from the spec (§4.1): `MotionPrimitive::translate` — its body is in
`motion_primitive_graph.cpp`, which is not under `src/`. `delta` is the spatial
difference of the new start and the stored start; it is added to the first
`spatial_dim` components of both endpoints and to the constant term (modelled as
the last entry) of each spatial row of `poly_coeffs`; higher-derivative
components are untouched. -/
def MotionPrimitive.translate (mp : MotionPrimitive) (new_start : List ℚ) : MotionPrimitive :=
  let sd := mp.spatial_dim
  let delta : List ℚ :=
    List.zipWith (· - ·) (new_start.take sd) (mp.start_state.take sd)
  let shift : List ℚ → List ℚ := fun v =>
    List.zipWith (· + ·) (v.take sd) delta ++ v.drop sd
  { mp with
    start_state := shift mp.start_state
    end_state := shift mp.end_state
    poly_coeffs :=
      (mp.poly_coeffs.enum.map fun rd =>
        if rd.1 < sd then rd.2.dropLast ++ [rd.2.getLastD 0 + delta.getD rd.1 0] else rd.2) }

/-- `MotionPrimitiveGraph` (motion_primitive_graph.h:50-72). `edges_` is a
`V × V_norm` integer matrix (row-major list of rows); a negative entry means
"no edge". -/
structure MotionPrimitiveGraph where
  edges : List (List ℤ) := []
  vertices : List (List ℚ) := []
  mps : List MotionPrimitive := []
  max_state : List ℚ := []
  dispersion : ℚ := 0
  rho : ℚ := 0
  spatial_dim : ℕ := 0
  control_space_dim : ℕ := 0
  state_dim : ℕ := 0
  num_tiles : ℕ := 1
  tiling : Bool := false
deriving DecidableEq, Repr, Inhabited

namespace MotionPrimitiveGraph

/-- Row count `V` of `edges_`. -/
def V (g : MotionPrimitiveGraph) : ℕ := g.edges.length

/-- Column count `V_norm` of `edges_`: `V / num_tiles` when tiling, else `V` (spec §3). -/
def Vnorm (g : MotionPrimitiveGraph) : ℕ := if g.tiling then g.V / g.num_tiles else g.V

/-- Modelled from the spec (§3, §4.1): `NormIndex` — declared in the missing
`graph_search2.h`; `NormIndex(i) = i mod V_norm` when tiling, else `i`. -/
def NormIndex (g : MotionPrimitiveGraph) (i : ℕ) : ℕ :=
  if g.tiling then i % g.Vnorm else i

/-- `edges_(i, j)`, with out-of-range reads giving `-1` ("no edge"). -/
def edgeAt (g : MotionPrimitiveGraph) (i j : ℕ) : ℤ :=
  (g.edges.getD i []).getD j (-1)

/-- Modelled from the spec (§4.1): `get_mp_between_indices(to_row, from_col_norm)`
returns a copy of `mps[edges(to_row, from_col_norm)]`; callers guard the
precondition `edges(to_row, from_col_norm) ≥ 0`. -/
def get_mp_between_indices (g : MotionPrimitiveGraph) (toRow fromCol : ℕ) : MotionPrimitive :=
  g.mps.getD (g.edgeAt toRow fromCol).toNat default

end MotionPrimitiveGraph

/-- `Node2` (declared in the missing `graph_search2.h`; fields as used by
graph_search2.cpp:59-63 and spec §3). -/
structure Node2 where
  state_index : ℕ := 0
  state : List ℚ := []
  motion_cost : ℚ := 0
  heuristic_cost : ℚ := 0
deriving DecidableEq, Repr, Inhabited

/-- `total_cost = motion_cost + heuristic_cost` (spec §3; used at graph_search2.cpp:170). -/
def Node2.total_cost (n : Node2) : ℚ := n.motion_cost + n.heuristic_cost

/-- The search context: the graph plus the two external callbacks
(`heuristic` and `is_mp_collision_free` are virtuals of `GraphSearch2`
supplied by the host; spec §2 items 2-3). -/
structure SearchContext where
  graph : MotionPrimitiveGraph
  heuristic : List ℚ → ℚ
  is_mp_collision_free : MotionPrimitive → Bool

/-- `state_pos_within` (graph_search2.cpp:18-21): squared spatial distance
strictly below `d * d`. -/
def state_pos_within (p1 p2 : List ℚ) (spatial_dim : ℕ) (d : ℚ) : Bool :=
  decide ((((List.zipWith (· - ·) (p1.take spatial_dim) (p2.take spatial_dim)).map
    (fun x => x * x)).sum) < d * d)

/-- Membership in the visited set of states: the C++ `unordered_set` stores the
raw vectors but compares them under the quantized hash/equality. -/
def visContains (vis : List (List ℚ)) (s : List ℚ) : Bool :=
  vis.any (fun t => decide (quantize t = quantize s))

/-- A `PathHistory` entry (spec §4.3): parent node snapshot and best cost seen;
a default-constructed entry has `best_cost = +∞`. -/
structure HistEntry where
  parent_node : Node2 := default
  best_cost : WithTop ℚ := ⊤
deriving DecidableEq, Repr, Inhabited

/-- `PathHistory`: association list keyed by the quantized state; the most
recent binding is the head (latest write wins on lookup). -/
def PathHistory := List (List ℤ × HistEntry)

instance : Inhabited PathHistory := ⟨([] : List (List ℤ × HistEntry))⟩

/-- Lookup of the most recent binding for a quantized key. -/
def histLookup : PathHistory → List ℤ → Option HistEntry
  | [], _ => none
  | (k, e) :: rest, q => if k = q then some e else histLookup rest q

/-- `history[state]` read (graph_search2.cpp:224): a state never written reads
as a default entry with `best_cost = +∞`. -/
def histFind (h : PathHistory) (s : List ℚ) : HistEntry :=
  (histLookup h (quantize s)).getD default

/-- Length of the association list (number of writes performed). -/
def histSize (h : PathHistory) : ℕ := (h : List (List ℤ × HistEntry)).length

/-- One loop body of `Expand` (graph_search2.cpp:46-65) at row `i`:
skip if no edge, translate the primitive to the node's state, skip if the end
state is already visited, skip if not collision free, else emit the next node. -/
def expandBody (ctx : SearchContext) (vis : List (List ℚ)) (node : Node2) (i : ℕ) :
    Option Node2 :=
  let state_index := ctx.graph.NormIndex node.state_index
  if ctx.graph.edgeAt i state_index < 0 then none
  else
    let mp := (ctx.graph.get_mp_between_indices i state_index).translate node.state
    if visContains vis mp.end_state then none
    else if ¬ ctx.is_mp_collision_free mp then none
    else some
      { state_index := i
        state := mp.end_state
        motion_cost := node.motion_cost + mp.cost
        heuristic_cost := ctx.heuristic mp.end_state }

/-- `GraphSearch2::Expand` (graph_search2.cpp:39-68): the loop body over
`i ∈ [0, V)` in ascending order. -/
def Expand (ctx : SearchContext) (vis : List (List ℚ)) (node : Node2) : List Node2 :=
  (List.range ctx.graph.V).filterMap (expandBody ctx vis node)

/-- `GraphSearch2::ExpandPar` (graph_search2.cpp:70-116): the same loop body,
run over a schedule of `tbb::blocked_range` chunks `(begin, end)`; the
per-chunk buffers are concatenated in schedule order (which models an arbitrary
concatenation order of the thread-local buffers). -/
def ExpandPar (ctx : SearchContext) (vis : List (List ℚ)) (node : Node2)
    (chunks : List (ℕ × ℕ)) : List Node2 :=
  chunks.flatMap (fun c => (List.range' c.1 (c.2 - c.1)).filterMap (expandBody ctx vis node))

/-- A schedule is valid when its chunks cover `[0, V)` exactly, in any order. -/
def chunksCover (V : ℕ) (chunks : List (ℕ × ℕ)) : Prop :=
  (chunks.flatMap (fun c => List.range' c.1 (c.2 - c.1))).Perm (List.range V)

/-- `GraphSearch2::GetPrimitiveBetween` (graph_search2.cpp:118-124). -/
def GetPrimitiveBetween (ctx : SearchContext) (start_node end_node : Node2) :
    MotionPrimitive :=
  let start_index := ctx.graph.NormIndex start_node.state_index
  (ctx.graph.get_mp_between_indices end_node.state_index start_index).translate start_node.state

/-- `GraphSearch2::RecoverPath` (graph_search2.cpp:126-140): walk parent
pointers until a node of `motion_cost` 0, collecting the translated primitives
(start-first; the C++ collects end-first and reverses). The fuel models
`ros::ok()`: on exhaustion the early part of the path is missing, exactly as a
cancelled C++ reconstruction drops the primitives it has not yet collected. -/
def RecoverPath (ctx : SearchContext) (history : PathHistory) :
    ℕ → Node2 → List MotionPrimitive
  | 0, _ => []
  | fuel + 1, curr =>
    if curr.motion_cost = 0 then []
    else
      let prev := (histFind history curr.state).parent_node
      RecoverPath ctx history fuel prev ++ [GetPrimitiveBetween ctx prev curr]

/-- Mutable state of `Search`'s main loop. `pq` is the priority queue (sorted
by `total_cost`, FIFO among ties); `visited` and `hist` are the member
`visited_states_` and the local `history`; `timings` records the sequence of
timing-counter labels accumulated. `expanded` and `pushed` are ghost traces. -/
structure LoopState where
  pq : List Node2 := []
  visited : List (List ℚ) := []
  hist : PathHistory := []
  timings : List String := []
  expanded : List Node2 := []
  pushed : List Node2 := []

/-- Push into the priority queue: insert after every element of
smaller-or-equal `total_cost` (one admissible refinement of the heap's
unspecified tie order). -/
def pqPush : List Node2 → Node2 → List Node2
  | [], n => [n]
  | m :: ms, n => if n.total_cost < m.total_cost then n :: m :: ms else m :: pqPush ms n

/-- Processing of one successor (graph_search2.cpp:221-233): read the best cost
reaching its state (`+∞` if never written), and on strict improvement push the
node and overwrite the history entry with the current node as parent. -/
def relaxOne (curr : Node2) (st : LoopState) (n : Node2) : LoopState :=
  if (n.motion_cost : WithTop ℚ) < (histFind st.hist n.state).best_cost then
    { st with
      pq := pqPush st.pq n
      hist := (quantize n.state, ⟨curr, (n.motion_cost : WithTop ℚ)⟩) :: st.hist
      timings := st.timings ++ ["astar_push"]
      pushed := st.pushed ++ [n] }
  else st

/-- The `for (const auto& next_node : next_nodes)` loop of graph_search2.cpp:221. -/
def relaxAll (curr : Node2) : LoopState → List Node2 → LoopState
  | st, [] => st
  | st, n :: ns => relaxAll curr (relaxOne curr st n) ns

/-- The main loop of `GraphSearch2::Search` (graph_search2.cpp:184-234), with
fuel standing for `ros::ok()`. Peek the top node; if its position is within
the threshold of the end, reconstruct and return; otherwise pop it, skip it if
its state is already visited, else insert the state into the visited set,
expand, and relax every successor. -/
def searchLoop (ctx : SearchContext) (end_state : List ℚ) (d : ℚ)
    (expf : List (List ℚ) → Node2 → ℕ → List Node2) :
    ℕ → LoopState → List MotionPrimitive × LoopState
  | 0, st => ([], st)
  | fuel + 1, st =>
    match st.pq with
    | [] => ([], st)
    | curr :: rest =>
      if state_pos_within curr.state end_state ctx.graph.spatial_dim d then
        (RecoverPath ctx st.hist (histSize st.hist + 1) curr, st)
      else
        let st1 : LoopState := { st with pq := rest, timings := st.timings ++ ["astar_pop"] }
        if visContains st1.visited curr.state then
          searchLoop ctx end_state d expf fuel st1
        else
          let vis' := curr.state :: st1.visited
          let succs := expf vis' curr st1.expanded.length
          searchLoop ctx end_state d expf fuel
            (relaxAll curr
              { st1 with
                visited := vis'
                expanded := st1.expanded ++ [curr]
                timings := st1.timings ++ ["astar_expand"] }
              succs)

/-- `GraphSearch2::Search` (graph_search2.cpp:142-237). `visited0` is the
member `visited_states_` left over from any previous call; it is cleared (with
the timings) before the early-exit distance check. `sched` supplies the chunk
schedule of each `ExpandPar` call (ignored when `parallel = false`); `fuel`
models `ros::ok()`. Returns the recovered path together with the final
searcher state. -/
def Search (ctx : SearchContext) (sched : ℕ → List (ℕ × ℕ)) (fuel : ℕ)
    (visited0 : List (List ℚ)) (start_state end_state : List ℚ)
    (distance_threshold : ℚ) (parallel : Bool) : List MotionPrimitive × LoopState :=
  let cleared : LoopState := {}
  if state_pos_within start_state end_state ctx.graph.spatial_dim distance_threshold then
    ([], cleared)
  else
    let start_node : Node2 :=
      { state_index := 0
        state := start_state
        motion_cost := 0
        heuristic_cost := ctx.heuristic start_state }
    searchLoop ctx end_state distance_threshold
      (fun vis node k =>
        if parallel then ExpandPar ctx vis node (sched k) else Expand ctx vis node)
      fuel { cleared with pq := [start_node] }

/-- `GraphSearch2::GetVisitedStates` (graph_search2.cpp:239-241). -/
def GetVisitedStates (st : LoopState) : List (List ℚ) := st.visited

/-- Total motion cost of a primitive list (the path's "total cost"). -/
def pathCost (l : List MotionPrimitive) : ℚ := (l.map (·.cost)).sum

/-- The start node built by `Search` (graph_search2.cpp:162-166). -/
def startNode (ctx : SearchContext) (start_state : List ℚ) : Node2 :=
  { state_index := 0
    state := start_state
    motion_cost := 0
    heuristic_cost := ctx.heuristic start_state }

/-! ### Basic lemmas about the containers -/

/-- `histFind` only depends on the quantized state. -/
theorem histFind_congr (h : PathHistory) {s s' : List ℚ}
    (hq : quantize s = quantize s') : histFind h s = histFind h s' := by
  unfold histFind; rw [hq]

/-- Lookup after a write: the new binding shadows the key, other keys unchanged. -/
theorem histLookup_cons (k : List ℤ) (e : HistEntry) (h : PathHistory) (q : List ℤ) :
    histLookup ((k, e) :: h) q = if k = q then some e else histLookup h q := rfl

/-- `pqPush` makes the queue strictly longer. -/
theorem pqPush_length (pq : List Node2) (n : Node2) :
    (pqPush pq n).length = pq.length + 1 := by
  induction pq with
  | nil => rfl
  | cons m ms ih => unfold pqPush; split_ifs <;> simp [ih]

/-- Members of `pqPush pq n` are members of `pq` or `n` itself. -/
theorem mem_pqPush : ∀ (pq : List Node2) (n m : Node2), m ∈ pqPush pq n → m ∈ pq ∨ m = n
  | [], n, m, h => by simpa [pqPush] using h
  | x :: xs, n, m, h => by
    unfold pqPush at h
    split_ifs at h with hc
    · rw [List.mem_cons] at h
      rcases h with h | h
      · exact Or.inr h
      · exact Or.inl h
    · rw [List.mem_cons] at h
      rcases h with h | h
      · exact Or.inl (by simp [h])
      · rcases mem_pqPush xs n m h with h' | h'
        · exact Or.inl (List.mem_cons_of_mem _ h')
        · exact Or.inr h'

/-- One-step unfolding of `histFind` over a freshly consed binding. -/
theorem histFind_cons (k : List ℤ) (e : HistEntry) (h : PathHistory) (s : List ℚ) :
    histFind ((k, e) :: h) s = if k = quantize s then e else histFind h s := by
  unfold histFind
  rw [histLookup_cons]
  split_ifs <;> rfl

/-! ### Claim C6: the hash contract -/

/-- C6 (counterexample): the `VectorXdHash` of graph_search2.cpp:25-37 does
not equal the spec's floor-based fold on the state `[-1/200]`: the code's
`(vd * 100).cast<int>()` truncates `-1/2` toward zero to `0`, while
`floor(-1/2) = -1`, and the two mixed hashes differ (with `std::hash<int>`
the identity conversion to `size_t`, as in libstdc++). -/
theorem hash_floor_refuted :
    VectorXdHash stdHashInt [-(1 / 200 : ℚ)] ≠ specHashFloor stdHashInt [-(1 / 200 : ℚ)] := by
  decide

/-- C6 (amended): for states all of whose components are nonnegative, the
`VectorXdHash` fold over `(vd * 100).cast<int>()` equals the spec's fold over
the integer components of `floor(state * 100)` with the same mixing step,
for every integer hash function; the quantization is truncation toward zero,
which agrees with floor exactly on nonnegative scaled components. -/
theorem hash_eq_floor_spec_of_nonneg (hashInt : ℤ → ℕ) (vd : List ℚ)
    (h : ∀ q ∈ vd, 0 ≤ q) : VectorXdHash hashInt vd = specHashFloor hashInt vd := by
  unfold VectorXdHash specHashFloor quantize
  congr 1
  refine List.map_congr_left fun q hq => ?_
  unfold truncToInt
  rw [if_pos (mul_nonneg (h q hq) (by norm_num))]

/-- Witness for `hash_eq_floor_spec_of_nonneg` at the state `[1/2, 3]`. -/
theorem hash_eq_floor_spec_of_nonneg_witness :
    (∀ q ∈ [(1 / 2 : ℚ), 3], 0 ≤ q) ∧
      VectorXdHash stdHashInt [(1 / 2 : ℚ), 3] = specHashFloor stdHashInt [(1 / 2 : ℚ), 3] :=
  ⟨by decide, hash_eq_floor_spec_of_nonneg stdHashInt [(1 / 2 : ℚ), 3] (by decide)⟩

/-! ### Claim C7: PathHistory semantics -/

/-- `relaxOne` can only lower the best cost recorded for any state, and the
drop is strict at the written key. -/
theorem histFind_relaxOne_le (curr : Node2) (st : LoopState) (n : Node2) (s' : List ℚ) :
    (histFind (relaxOne curr st n).hist s').best_cost ≤ (histFind st.hist s').best_cost := by
  unfold relaxOne
  split_ifs with hc
  · show (histFind ((quantize n.state, ⟨curr, (n.motion_cost : WithTop ℚ)⟩) :: st.hist)
      s').best_cost ≤ _
    rw [histFind_cons]
    split_ifs with hk
    · have he : histFind st.hist n.state = histFind st.hist s' := histFind_congr st.hist hk
      calc (HistEntry.mk curr (n.motion_cost : WithTop ℚ)).best_cost
          = (n.motion_cost : WithTop ℚ) := rfl
        _ ≤ (histFind st.hist n.state).best_cost := le_of_lt hc
        _ = (histFind st.hist s').best_cost := by rw [he]
    · exact le_refl _
  · exact le_refl _

/-- C7: (a) a state read for the first time (no binding for its quantized key)
reads `best_cost = +∞`; (b) when a successor's `motion_cost` is strictly below
the stored best cost, the successor is pushed and the history entry is
overwritten with the expanding node as parent and the new cost — and only
then: otherwise both the queue and the history are left untouched; the queue
changes exactly when the history does, and the recorded best cost of every
state never increases across a relax step. -/
theorem history_default_inf_and_strict_improvement :
    (∀ (h : PathHistory) (s : List ℚ),
        histLookup h (quantize s) = none → (histFind h s).best_cost = ⊤) ∧
    (∀ (curr : Node2) (st : LoopState) (n : Node2),
      ((n.motion_cost : WithTop ℚ) < (histFind st.hist n.state).best_cost →
        (relaxOne curr st n).pq = pqPush st.pq n ∧
          (relaxOne curr st n).hist =
            (quantize n.state, ⟨curr, (n.motion_cost : WithTop ℚ)⟩) :: st.hist ∧
          histFind (relaxOne curr st n).hist n.state =
            ⟨curr, (n.motion_cost : WithTop ℚ)⟩) ∧
      (¬ (n.motion_cost : WithTop ℚ) < (histFind st.hist n.state).best_cost →
        relaxOne curr st n = st) ∧
      ((relaxOne curr st n).hist ≠ st.hist ↔
        (n.motion_cost : WithTop ℚ) < (histFind st.hist n.state).best_cost) ∧
      (∀ s', (histFind (relaxOne curr st n).hist s').best_cost ≤
        (histFind st.hist s').best_cost)) := by
  constructor
  · intro h s hnone
    unfold histFind
    rw [hnone]
    rfl
  · intro curr st n
    refine ⟨fun hc => ?_, fun hc => ?_, ?_, histFind_relaxOne_le curr st n⟩
    · unfold relaxOne
      rw [if_pos hc]
      refine ⟨rfl, rfl, ?_⟩
      show histFind ((quantize n.state, _) :: st.hist) n.state = _
      rw [histFind_cons, if_pos rfl]
    · unfold relaxOne
      rw [if_neg hc]
    · constructor
      · intro hne
        by_contra hc
        exact hne (by unfold relaxOne; rw [if_neg hc])
      · intro hc
        unfold relaxOne
        rw [if_pos hc]
        intro habs
        have : ((quantize n.state, HistEntry.mk curr (n.motion_cost : WithTop ℚ)) ::
            st.hist).length = st.hist.length := congrArg List.length habs
        simp at this

/-- Witness for `history_default_inf_and_strict_improvement`: a fresh history
reads `+∞` for any state, and relaxing a successor of cost 1 against an empty
history pushes it and records cost 1. -/
theorem history_default_inf_and_strict_improvement_witness :
    (histFind ([] : PathHistory) [(0 : ℚ)]).best_cost = ⊤ ∧
      (relaxOne {} {} { state := [(1 : ℚ)], motion_cost := 1 }).hist =
        [(quantize [(1 : ℚ)], ⟨{}, ((1 : ℚ) : WithTop ℚ)⟩)] := by
  constructor
  · exact history_default_inf_and_strict_improvement.1 [] [(0 : ℚ)] rfl
  · have h := (history_default_inf_and_strict_improvement.2 {} {}
      { state := [(1 : ℚ)], motion_cost := 1 }).1 (by decide)
    exact h.2.1

/-! ### Claim C9: only the magnitude of the threshold matters -/

/-- `state_pos_within` compares the squared distance against `d * d`
(graph_search2.cpp:20), so negating `d` changes nothing. -/
theorem state_pos_within_neg (p1 p2 : List ℚ) (sd : ℕ) (d : ℚ) :
    state_pos_within p1 p2 sd (-d) = state_pos_within p1 p2 sd d := by
  unfold state_pos_within
  rw [neg_mul_neg]

/-- The main loop uses the threshold only through `state_pos_within`. -/
theorem searchLoop_neg_threshold (ctx : SearchContext) (e : List ℚ) (d : ℚ)
    (expf : List (List ℚ) → Node2 → ℕ → List Node2) :
    ∀ (fuel : ℕ) (st : LoopState),
      searchLoop ctx e (-d) expf fuel st = searchLoop ctx e d expf fuel st := by
  intro fuel
  induction fuel with
  | zero => intro st; rfl
  | succ k ih =>
    intro st
    unfold searchLoop
    cases hpq : st.pq with
    | nil => rfl
    | cons curr rest =>
      dsimp only
      rw [state_pos_within_neg]
      split_ifs with h1 h2
      · rfl
      · exact ih _
      · exact ih _

/-- C9: `Search` returns the same result (path and final state) for
`distance_threshold` and `-distance_threshold`: both the early exit and the
goal test compare the squared spatial distance against
`distance_threshold * distance_threshold`. -/
theorem search_threshold_sign_irrelevant (ctx : SearchContext)
    (sched : ℕ → List (ℕ × ℕ)) (fuel : ℕ) (visited0 : List (List ℚ))
    (start_state end_state : List ℚ) (d : ℚ) (parallel : Bool) :
    Search ctx sched fuel visited0 start_state end_state d parallel =
      Search ctx sched fuel visited0 start_state end_state (-d) parallel := by
  unfold Search
  rw [state_pos_within_neg]
  split_ifs with h
  · rfl
  all_goals exact (searchLoop_neg_threshold ctx end_state d _ fuel _).symm

/-! ### Claim C10: the visited set is cleared at entry -/

/-- A search context over the empty graph (used for concrete witnesses). -/
def trivialCtx : SearchContext :=
  { graph := {}
    heuristic := fun _ => 0
    is_mp_collision_free := fun _ => true }

/-- C10: `Search` clears `visited_states_` (graph_search2.cpp:154) before the
early-exit check (graph_search2.cpp:157), so an early exit leaves
`GetVisitedStates` empty, and the result of `Search` — hence the subsequent
`GetVisitedStates` — does not depend on the visited set left by any previous
call. -/
theorem visited_cleared_before_early_exit (ctx : SearchContext)
    (sched : ℕ → List (ℕ × ℕ)) (fuel : ℕ) (visited0 visited0' : List (List ℚ))
    (start_state end_state : List ℚ) (d : ℚ) (parallel : Bool) :
    (state_pos_within start_state end_state ctx.graph.spatial_dim d = true →
      GetVisitedStates (Search ctx sched fuel visited0 start_state end_state d parallel).2
        = []) ∧
    Search ctx sched fuel visited0 start_state end_state d parallel =
      Search ctx sched fuel visited0' start_state end_state d parallel := by
  refine ⟨fun h => ?_, rfl⟩
  unfold Search
  rw [if_pos h]
  rfl

/-- Witness for `visited_cleared_before_early_exit`: an early-exit call with a
stale visited set from a previous search reports no visited states. -/
theorem visited_cleared_before_early_exit_witness :
    GetVisitedStates
      (Search trivialCtx (fun _ => []) 5 [[(42 : ℚ)]] [0] [0] 1 false).2 = [] :=
  (visited_cleared_before_early_exit trivialCtx (fun _ => []) 5 [[(42 : ℚ)]] []
    [0] [0] 1 false).1 (by decide)

/-! ### Claim C8: the timing counters -/

/-- The timing labels mirror the operations performed so far. -/
def timingsOk (st : LoopState) : Prop :=
  st.timings.count "astar_expand" = st.expanded.length ∧
  st.timings.count "astar_push" = st.pushed.length

theorem timingsOk_relaxOne (curr : Node2) (st : LoopState) (n : Node2)
    (h : timingsOk st) : timingsOk (relaxOne curr st n) := by
  obtain ⟨h1, h2⟩ := h
  unfold relaxOne
  split_ifs with hc
  · constructor
    · show (st.timings ++ ["astar_push"]).count "astar_expand" = st.expanded.length
      rw [List.count_append, h1,
        show (["astar_push"] : List String).count "astar_expand" = 0 from by decide]
      omega
    · show (st.timings ++ ["astar_push"]).count "astar_push" = (st.pushed ++ [n]).length
      rw [List.count_append, h2, List.length_append,
        show (["astar_push"] : List String).count "astar_push" = 1 from by decide]
      rfl
  · exact ⟨h1, h2⟩

theorem timingsOk_relaxAll (curr : Node2) :
    ∀ (l : List Node2) (st : LoopState), timingsOk st → timingsOk (relaxAll curr st l)
  | [], _, h => h
  | n :: ns, st, h => timingsOk_relaxAll curr ns _ (timingsOk_relaxOne curr st n h)

theorem timingsOk_pop (st : LoopState) (rest : List Node2) (h : timingsOk st) :
    timingsOk { st with pq := rest, timings := st.timings ++ ["astar_pop"] } := by
  obtain ⟨h1, h2⟩ := h
  constructor
  · show (st.timings ++ ["astar_pop"]).count "astar_expand" = st.expanded.length
    rw [List.count_append, h1,
      show (["astar_pop"] : List String).count "astar_expand" = 0 from by decide]
    omega
  · show (st.timings ++ ["astar_pop"]).count "astar_push" = st.pushed.length
    rw [List.count_append, h2,
      show (["astar_pop"] : List String).count "astar_push" = 0 from by decide]
    omega

theorem timingsOk_expandStep (st : LoopState) (curr : Node2) (vis' : List (List ℚ))
    (h : timingsOk st) :
    timingsOk { st with
      visited := vis'
      expanded := st.expanded ++ [curr]
      timings := st.timings ++ ["astar_expand"] } := by
  obtain ⟨h1, h2⟩ := h
  constructor
  · show (st.timings ++ ["astar_expand"]).count "astar_expand" = (st.expanded ++ [curr]).length
    rw [List.count_append, h1, List.length_append,
      show (["astar_expand"] : List String).count "astar_expand" = 1 from by decide]
    simp
  · show (st.timings ++ ["astar_expand"]).count "astar_push" = st.pushed.length
    rw [List.count_append, h2,
      show (["astar_expand"] : List String).count "astar_push" = 0 from by decide]
    omega

theorem timingsOk_searchLoop (ctx : SearchContext) (e : List ℚ) (d : ℚ)
    (expf : List (List ℚ) → Node2 → ℕ → List Node2) :
    ∀ (fuel : ℕ) (st : LoopState), timingsOk st →
      timingsOk (searchLoop ctx e d expf fuel st).2 := by
  intro fuel
  induction fuel with
  | zero => intro st h; exact h
  | succ k ih =>
    intro st h
    unfold searchLoop
    cases hpq : st.pq with
    | nil => exact h
    | cons curr rest =>
      dsimp only
      split_ifs with h1 h2
      · exact h
      · exact ih _ (timingsOk_pop st rest h)
      · exact ih _ (timingsOk_relaxAll curr _ _
          (timingsOk_expandStep _ curr _ (timingsOk_pop st rest h)))

/-- C8 (amended): the timing counters reflect exactly the operations performed:
`timings` accumulates one `"astar_pop"` per pop, one `"astar_expand"` per node
passed to the expander and one `"astar_push"` per push; consequently, on the
early exit (start and end positions within `distance_threshold`) and on any
search that performs no expansion or no push, the corresponding labels are
absent — in particular the early exit returns with `timings` empty rather
than populated. -/
theorem timings_reflect_operations (ctx : SearchContext) (sched : ℕ → List (ℕ × ℕ))
    (fuel : ℕ) (visited0 : List (List ℚ)) (start_state end_state : List ℚ)
    (d : ℚ) (parallel : Bool) :
    (state_pos_within start_state end_state ctx.graph.spatial_dim d = true →
      (Search ctx sched fuel visited0 start_state end_state d parallel).2.timings = []) ∧
    (Search ctx sched fuel visited0 start_state end_state d parallel).2.timings.count
        "astar_expand" =
      (Search ctx sched fuel visited0 start_state end_state d parallel).2.expanded.length ∧
    (Search ctx sched fuel visited0 start_state end_state d parallel).2.timings.count
        "astar_push" =
      (Search ctx sched fuel visited0 start_state end_state d parallel).2.pushed.length := by
  constructor
  · intro h
    unfold Search
    rw [if_pos h]
  · show timingsOk (Search ctx sched fuel visited0 start_state end_state d parallel).2
    unfold Search
    by_cases h : state_pos_within start_state end_state ctx.graph.spatial_dim d = true
    · rw [if_pos h]
      exact ⟨rfl, rfl⟩
    · rw [if_neg h]
      exact timingsOk_searchLoop ctx end_state d _ fuel _ ⟨rfl, rfl⟩

/-- Witness for `timings_reflect_operations`: an early-exit call ends with
empty timings. -/
theorem timings_reflect_operations_witness :
    (Search trivialCtx (fun _ => []) 5 [] [0] [0] 1 false).2.timings = [] :=
  (timings_reflect_operations trivialCtx (fun _ => []) 5 [] [0] [0] 1 false).1 (by decide)

/-- C8 (counterexample): an early exit — start and end positions within
`distance_threshold` — returns with `timings` containing no entry at all, in
particular none for `"astar_pop"`: the claim that all three labels are present
regardless of outcome fails on the early exit, where `timings.clear()` at
graph_search2.cpp:153 is followed by no accumulation. -/
theorem timings_populated_refuted :
    state_pos_within [(0 : ℚ)] [(0 : ℚ)] trivialCtx.graph.spatial_dim 1 = true ∧
    "astar_pop" ∉ (Search trivialCtx (fun _ => []) 5 [] [0] [0] 1 false).2.timings := by
  exact ⟨by decide, by decide⟩

/-! ### Claim C2: serial/parallel expansion -/

/-- `ExpandPar` over any valid schedule emits the same successors as `Expand`,
up to order. -/
theorem expandPar_perm_expand (ctx : SearchContext) (vis : List (List ℚ)) (node : Node2)
    (chunks : List (ℕ × ℕ)) (hc : chunksCover ctx.graph.V chunks) :
    (ExpandPar ctx vis node chunks).Perm (Expand ctx vis node) := by
  unfold ExpandPar Expand
  unfold chunksCover at hc
  rw [← List.filterMap_flatMap]
  exact hc.filterMap _

/-- A single full-range chunk makes `ExpandPar` literally `Expand`. -/
theorem expandPar_single_chunk (ctx : SearchContext) (vis : List (List ℚ)) (node : Node2) :
    ExpandPar ctx vis node [(0, ctx.graph.V)] = Expand ctx vis node := by
  unfold ExpandPar Expand
  rw [List.flatMap_cons, List.flatMap_nil, List.append_nil, Nat.sub_zero,
    ← List.range_eq_range']

/-- The loop only depends on the expander extensionally. -/
theorem searchLoop_congr_expf (ctx : SearchContext) (e : List ℚ) (d : ℚ)
    (f g : List (List ℚ) → Node2 → ℕ → List Node2)
    (hfg : ∀ vis n k, f vis n k = g vis n k) :
    ∀ (fuel : ℕ) (st : LoopState),
      searchLoop ctx e d f fuel st = searchLoop ctx e d g fuel st := by
  intro fuel
  induction fuel with
  | zero => intro st; rfl
  | succ k ih =>
    intro st
    unfold searchLoop
    cases hpq : st.pq with
    | nil => rfl
    | cons curr rest =>
      dsimp only
      split_ifs with h1 h2
      · rfl
      · exact ih _
      · rw [hfg]
        exact ih _

/-- A parallel search whose schedule is always the single ascending full-range
chunk coincides with the serial search. -/
theorem search_full_schedule_parallel_eq_serial (ctx : SearchContext)
    (sched : ℕ → List (ℕ × ℕ)) (fuel : ℕ) (visited0 : List (List ℚ))
    (start_state end_state : List ℚ) (d : ℚ) :
    Search ctx (fun _ => [(0, ctx.graph.V)]) fuel visited0 start_state end_state d true =
      Search ctx sched fuel visited0 start_state end_state d false := by
  unfold Search
  by_cases h : state_pos_within start_state end_state ctx.graph.spatial_dim d = true
  · rw [if_pos h, if_pos h]
  · rw [if_neg h, if_neg h]
    exact searchLoop_congr_expf ctx end_state d _ _
      (fun vis n k => by
        show (if true = true then ExpandPar ctx vis n [(0, ctx.graph.V)]
            else Expand ctx vis n) =
          (if false = true then ExpandPar ctx vis n (sched k) else Expand ctx vis n)
        rw [if_pos rfl, if_neg (by decide)]
        exact expandPar_single_chunk ctx vis n) fuel _

/-- C2 (amended): for every deterministic collision oracle and heuristic,
`ExpandPar(node)` produces the same multiset of successor nodes as
`Expand(node)` for every node and every valid chunk schedule; and
`Search(parallel=true)` returns the same path as `Search(parallel=false)`
whenever the parallel concatenation preserves the ascending row order (e.g. a
single worker). Equality of the returned total cost is not guaranteed for
arbitrary concatenation orders: reordering successors can flip the heap's tie
order between equal-`total_cost` entries (see the counterexample). -/
theorem expand_parallel_equivalence :
    (∀ (ctx : SearchContext) (vis : List (List ℚ)) (node : Node2)
      (chunks : List (ℕ × ℕ)), chunksCover ctx.graph.V chunks →
        (ExpandPar ctx vis node chunks).Perm (Expand ctx vis node)) ∧
    (∀ (ctx : SearchContext) (sched : ℕ → List (ℕ × ℕ)) (fuel : ℕ)
      (visited0 : List (List ℚ)) (start_state end_state : List ℚ) (d : ℚ),
        Search ctx (fun _ => [(0, ctx.graph.V)]) fuel visited0 start_state end_state d
            true =
          Search ctx sched fuel visited0 start_state end_state d false) :=
  ⟨expandPar_perm_expand, search_full_schedule_parallel_eq_serial⟩

/-- The two-successor graph used to exhibit tie-order sensitivity: from the
start, primitive 0 reaches position 10 at cost 1 and primitive 1 reaches
position 10.1 at cost 2; the heuristic gives both successors the same
`total_cost` 2. -/
def tieGraph : MotionPrimitiveGraph :=
  { edges := [[-1, -1, -1], [0, -1, -1], [1, -1, -1]]
    mps := [ { cost := 1, spatial_dim := 1, start_state := [0], end_state := [10] },
             { cost := 2, spatial_dim := 1, start_state := [0], end_state := [101 / 10] } ]
    spatial_dim := 1 }

def tieCtx : SearchContext :=
  { graph := tieGraph
    heuristic := fun s => if s.headD 0 ≤ 10 then 1 else 0
    is_mp_collision_free := fun _ => true }

/-- Witness for `expand_parallel_equivalence` on the concrete `tieCtx`. -/
theorem expand_parallel_equivalence_witness :
    (ExpandPar tieCtx [] (startNode tieCtx [0]) [(2, 3), (0, 2)]).Perm
      (Expand tieCtx [] (startNode tieCtx [0])) ∧
    Search tieCtx (fun _ => [(0, tieCtx.graph.V)]) 10 [] [0] [10] 1 true =
      Search tieCtx (fun _ => [(9, 9)]) 10 [] [0] [10] 1 false :=
  ⟨expand_parallel_equivalence.1 tieCtx [] (startNode tieCtx [0]) [(2, 3), (0, 2)]
      (by unfold chunksCover; decide),
    expand_parallel_equivalence.2 tieCtx (fun _ => [(9, 9)]) 10 [] [0] [10] 1⟩

/-- C2 (counterexample): with the deterministic always-free oracle and the
deterministic heuristic of `tieCtx`, the serial search returns the cost-1 path
while the parallel search under the valid schedule that emits row 2 before
rows 0-1 returns the cost-2 path: both successors tie at `total_cost` 2, and
the concatenation order of the thread-local buffers decides which one reaches
the top of the heap first and passes the goal test. -/
theorem serial_parallel_cost_refuted :
    chunksCover tieCtx.graph.V [(2, 3), (0, 2)] ∧
    pathCost (Search tieCtx (fun _ => [(0, 3)]) 10 [] [0] [10] (1 / 2) false).1 = 1 ∧
    pathCost (Search tieCtx (fun _ => [(2, 3), (0, 2)]) 10 [] [0] [10] (1 / 2) true).1 = 2 := by
  exact ⟨by unfold chunksCover; decide, by decide, by decide⟩

/-! ### Claim C5: no re-expansion -/

theorem relaxOne_expanded (curr : Node2) (st : LoopState) (n : Node2) :
    (relaxOne curr st n).expanded = st.expanded := by
  unfold relaxOne; split_ifs <;> rfl

theorem relaxOne_visited (curr : Node2) (st : LoopState) (n : Node2) :
    (relaxOne curr st n).visited = st.visited := by
  unfold relaxOne; split_ifs <;> rfl

theorem relaxAll_expanded (curr : Node2) :
    ∀ (l : List Node2) (st : LoopState), (relaxAll curr st l).expanded = st.expanded
  | [], _ => rfl
  | n :: ns, st => by
    show (relaxAll curr (relaxOne curr st n) ns).expanded = st.expanded
    rw [relaxAll_expanded curr ns _, relaxOne_expanded]

theorem relaxAll_visited (curr : Node2) :
    ∀ (l : List Node2) (st : LoopState), (relaxAll curr st l).visited = st.visited
  | [], _ => rfl
  | n :: ns, st => by
    show (relaxAll curr (relaxOne curr st n) ns).visited = st.visited
    rw [relaxAll_visited curr ns _, relaxOne_visited]

theorem visContains_congr (vis : List (List ℚ)) {s s' : List ℚ}
    (hq : quantize s = quantize s') : visContains vis s = visContains vis s' := by
  unfold visContains
  simp only [hq]

theorem visContains_cons_self (vis : List (List ℚ)) (s : List ℚ) :
    visContains (s :: vis) s = true := by
  unfold visContains
  simp

theorem visContains_cons_of (vis : List (List ℚ)) (t s : List ℚ)
    (h : visContains vis s = true) : visContains (t :: vis) s = true := by
  unfold visContains at h ⊢
  simp [List.any_cons, h]

/-- The C5 invariant: expanded states are pairwise distinct under the quantized
equivalence, and each of them is in the visited set. -/
def expandedOk (st : LoopState) : Prop :=
  (st.expanded.map (fun n => quantize n.state)).Nodup ∧
  ∀ n ∈ st.expanded, visContains st.visited n.state = true

theorem expandedOk_relaxAll (curr : Node2) (l : List Node2) (st : LoopState)
    (h : expandedOk st) : expandedOk (relaxAll curr st l) := by
  unfold expandedOk at h ⊢
  rw [relaxAll_expanded, relaxAll_visited]
  exact h

theorem expandedOk_expandStep (st : LoopState) (curr : Node2)
    (hnotvis : ¬ visContains st.visited curr.state = true) (h : expandedOk st) :
    expandedOk { st with
      visited := curr.state :: st.visited
      expanded := st.expanded ++ [curr]
      timings := st.timings ++ ["astar_expand"] } := by
  obtain ⟨h1, h2⟩ := h
  constructor
  · show ((st.expanded ++ [curr]).map (fun n => quantize n.state)).Nodup
    rw [List.map_append]
    rw [List.nodup_append]
    refine ⟨h1, List.nodup_singleton _, ?_⟩
    intro q hq hq'
    simp only [List.map_cons, List.map_nil, List.mem_singleton] at hq'
    subst hq'
    obtain ⟨m, hm, hmq⟩ := List.mem_map.mp hq
    have : visContains st.visited curr.state = true := by
      rw [← visContains_congr st.visited hmq]
      exact h2 m hm
    exact hnotvis this
  · intro n hn
    rcases List.mem_append.mp hn with hn | hn
    · exact visContains_cons_of _ _ _ (h2 n hn)
    · rw [List.mem_singleton] at hn
      subst hn
      exact visContains_cons_self _ _

theorem expandedOk_searchLoop (ctx : SearchContext) (e : List ℚ) (d : ℚ)
    (expf : List (List ℚ) → Node2 → ℕ → List Node2) :
    ∀ (fuel : ℕ) (st : LoopState), expandedOk st →
      expandedOk (searchLoop ctx e d expf fuel st).2 := by
  intro fuel
  induction fuel with
  | zero => intro st h; exact h
  | succ k ih =>
    intro st h
    unfold searchLoop
    cases hpq : st.pq with
    | nil => exact h
    | cons curr rest =>
      dsimp only
      split_ifs with h1 h2
      · exact h
      · exact ih _ h
      · exact ih _ (expandedOk_relaxAll curr _ _ (expandedOk_expandStep _ curr h2 h))

/-- C5: within one `Search` call, each state — under the quantized
equivalence — is passed to the expander at most once (the ghost trace of
expanded nodes has pairwise distinct quantized states), and every expanded
node's state is in the visited set (it is inserted at graph_search2.cpp:215,
before the expansion at graph_search2.cpp:218; a popped node whose state is
already visited is skipped at graph_search2.cpp:211-213). -/
theorem search_no_reexpansion (ctx : SearchContext) (sched : ℕ → List (ℕ × ℕ))
    (fuel : ℕ) (visited0 : List (List ℚ)) (start_state end_state : List ℚ)
    (d : ℚ) (parallel : Bool) :
    ((Search ctx sched fuel visited0 start_state end_state d parallel).2.expanded.map
      (fun n => quantize n.state)).Nodup ∧
    ∀ n ∈ (Search ctx sched fuel visited0 start_state end_state d parallel).2.expanded,
      visContains
        (Search ctx sched fuel visited0 start_state end_state d parallel).2.visited
        n.state = true := by
  show expandedOk _
  unfold Search
  by_cases h : state_pos_within start_state end_state ctx.graph.spatial_dim d = true
  · rw [if_pos h]
    exact ⟨List.nodup_nil, by intro n hn; cases hn⟩
  · rw [if_neg h]
    exact expandedOk_searchLoop ctx end_state d _ fuel _
      ⟨List.nodup_nil, by intro n hn; cases hn⟩

/-- Witness for `search_no_reexpansion`: on the tie graph the start node is
expanded, and its state is recorded visited. -/
theorem search_no_reexpansion_witness :
    visContains (Search tieCtx (fun _ => []) 10 [] [0] [10] 1 false).2.visited
      (startNode tieCtx [0]).state = true :=
  (search_no_reexpansion tieCtx (fun _ => []) 10 [] [0] [10] 1 false).2
    (startNode tieCtx [0]) (by decide)

/-! ### The successor relation and the search invariant (for C1, C3, C4) -/

/-- The fetched-and-translated primitive the expander body builds for row `i`
out of node `p` (graph_search2.cpp:49-50). -/
def succMp (ctx : SearchContext) (p : Node2) (i : ℕ) : MotionPrimitive :=
  (ctx.graph.get_mp_between_indices i (ctx.graph.NormIndex p.state_index)).translate p.state

/-- The successor node the expander body emits for row `i` out of node `p`
(graph_search2.cpp:59-63). -/
def SuccNode (ctx : SearchContext) (p : Node2) (i : ℕ) : Node2 :=
  { state_index := i
    state := (succMp ctx p i).end_state
    motion_cost := p.motion_cost + (succMp ctx p i).cost
    heuristic_cost := ctx.heuristic (succMp ctx p i).end_state }

/-- `n` can be emitted by the expander loop body from `p`: there is an edge, and
the translated primitive is collision free. (The visited filter only removes
successors, so every emitted node satisfies this.) -/
def IsSucc (ctx : SearchContext) (p n : Node2) : Prop :=
  ∃ i, n = SuccNode ctx p i ∧
    0 ≤ ctx.graph.edgeAt i (ctx.graph.NormIndex p.state_index) ∧
    ctx.is_mp_collision_free (succMp ctx p i) = true

theorem expandBody_isSucc {ctx : SearchContext} {vis : List (List ℚ)} {p : Node2}
    {i : ℕ} {n : Node2} (h : expandBody ctx vis p i = some n) : IsSucc ctx p n := by
  unfold expandBody at h
  dsimp only at h
  split_ifs at h with h1 h2 h3
  all_goals first
    | exact Option.noConfusion h
    | exact ⟨i, (Option.some_inj.mp h).symm, not_lt.mp h1, h3⟩

theorem mem_expand_isSucc {ctx : SearchContext} {vis : List (List ℚ)} {p n : Node2}
    (h : n ∈ Expand ctx vis p) : IsSucc ctx p n := by
  obtain ⟨i, _, hb⟩ := List.mem_filterMap.mp h
  exact expandBody_isSucc hb

theorem mem_expandPar_isSucc {ctx : SearchContext} {vis : List (List ℚ)} {p n : Node2}
    {chunks : List (ℕ × ℕ)} (h : n ∈ ExpandPar ctx vis p chunks) : IsSucc ctx p n := by
  obtain ⟨c, _, hc⟩ := List.mem_flatMap.mp h
  obtain ⟨i, _, hb⟩ := List.mem_filterMap.mp hc
  exact expandBody_isSucc hb

/-- An alias-free run: any two pushed nodes with quantized-equal states agree
exactly on the state vector and the lattice index. -/
def AliasFree (l : List Node2) : Prop :=
  ∀ n ∈ l, ∀ m ∈ l, quantize n.state = quantize m.state →
    n.state = m.state ∧ n.state_index = m.state_index

/-- The core invariant of the main loop, relating the queue, the ghost traces
and the history. `s0` is the start node. -/
structure InvCore (ctx : SearchContext) (s0 : Node2) (st : LoopState) : Prop where
  pq_src : ∀ n ∈ st.pq, n = s0 ∨ n ∈ st.pushed
  exp_src : ∀ n ∈ st.expanded, n = s0 ∨ n ∈ st.pushed
  pushed_succ : ∀ n ∈ st.pushed, ∃ p, p ∈ st.expanded ∧ IsSucc ctx p n
  pushed_hist : ∀ n ∈ st.pushed, ∃ e, histLookup st.hist (quantize n.state) = some e ∧
    e.best_cost ≤ (n.motion_cost : WithTop ℚ)
  hist_src : ∀ q e, histLookup st.hist q = some e →
    ∃ n, n ∈ st.pushed ∧ quantize n.state = q ∧
      e.best_cost = (n.motion_cost : WithTop ℚ) ∧ IsSucc ctx e.parent_node n ∧
      e.parent_node ∈ st.expanded

theorem invCore_relaxOne {ctx : SearchContext} {s0 : Node2} {st : LoopState}
    {curr n : Node2} (hcur : curr ∈ st.expanded) (hsucc : IsSucc ctx curr n)
    (h : InvCore ctx s0 st) : InvCore ctx s0 (relaxOne curr st n) := by
  unfold relaxOne
  split_ifs with hc
  · constructor
    · intro m hm
      rcases mem_pqPush st.pq n m hm with hm' | hm'
      · rcases h.pq_src m hm' with h' | h'
        · exact Or.inl h'
        · exact Or.inr (List.mem_append_left _ h')
      · refine Or.inr ?_
        rw [hm']
        exact List.mem_append_right _ (List.mem_singleton_self n)
    · intro m hm
      rcases h.exp_src m hm with h' | h'
      · exact Or.inl h'
      · exact Or.inr (List.mem_append_left _ h')
    · intro m hm
      rcases List.mem_append.mp hm with hm' | hm'
      · obtain ⟨p, hp, hps⟩ := h.pushed_succ m hm'
        exact ⟨p, hp, hps⟩
      · rw [List.mem_singleton] at hm'
        exact ⟨curr, hcur, hm' ▸ hsucc⟩
    · intro m hm
      rcases List.mem_append.mp hm with hm' | hm'
      · obtain ⟨e, he, hle⟩ := h.pushed_hist m hm'
        by_cases hk : quantize n.state = quantize m.state
        · refine ⟨⟨curr, (n.motion_cost : WithTop ℚ)⟩, ?_, ?_⟩
          · show histLookup ((quantize n.state, _) :: st.hist) (quantize m.state) = _
            rw [histLookup_cons, if_pos hk]
          · show (n.motion_cost : WithTop ℚ) ≤ (m.motion_cost : WithTop ℚ)
            have hfind : histFind st.hist n.state = e := by
              unfold histFind
              rw [hk, he]
              rfl
            exact le_of_lt (lt_of_lt_of_le (hfind ▸ hc) hle)
        · refine ⟨e, ?_, hle⟩
          show histLookup ((quantize n.state, _) :: st.hist) (quantize m.state) = some e
          rw [histLookup_cons, if_neg hk]
          exact he
      · rw [List.mem_singleton] at hm'
        subst hm'
        refine ⟨⟨curr, (m.motion_cost : WithTop ℚ)⟩, ?_, le_refl _⟩
        show histLookup ((quantize m.state, _) :: st.hist) (quantize m.state) = _
        rw [histLookup_cons, if_pos rfl]
    · intro q e he
      rw [histLookup_cons] at he
      split_ifs at he with hk
      · refine ⟨n, List.mem_append_right _ (List.mem_singleton_self n), hk, ?_, ?_, ?_⟩
        · rw [← Option.some_inj.mp he]
        · rw [← Option.some_inj.mp he]
          exact hsucc
        · rw [← Option.some_inj.mp he]
          exact hcur
      · obtain ⟨m, hm, hmq, hmb, hms, hmp⟩ := h.hist_src q e he
        exact ⟨m, List.mem_append_left _ hm, hmq, hmb, hms, hmp⟩
  · exact h

theorem invCore_relaxAll {ctx : SearchContext} {s0 : Node2} (curr : Node2) :
    ∀ (l : List Node2) (st : LoopState), curr ∈ st.expanded →
      (∀ n ∈ l, IsSucc ctx curr n) → InvCore ctx s0 st →
      InvCore ctx s0 (relaxAll curr st l)
  | [], _, _, _, h => h
  | n :: ns, st, hcur, hl, h => by
    show InvCore ctx s0 (relaxAll curr (relaxOne curr st n) ns)
    refine invCore_relaxAll curr ns _ ?_ (fun m hm => hl m (List.mem_cons_of_mem _ hm)) ?_
    · rw [relaxOne_expanded]
      exact hcur
    · exact invCore_relaxOne hcur (hl n (List.mem_cons_self n ns)) h

theorem invCore_popSkip {ctx : SearchContext} {s0 : Node2} {st : LoopState}
    (rest : List Node2) (hrest : ∀ n ∈ rest, n = s0 ∨ n ∈ st.pushed)
    (h : InvCore ctx s0 st) (tims : List String) :
    InvCore ctx s0 { st with pq := rest, timings := tims } :=
  ⟨hrest, h.exp_src, h.pushed_succ, h.pushed_hist, h.hist_src⟩

theorem invCore_expandStep {ctx : SearchContext} {s0 : Node2} {st : LoopState}
    {curr : Node2} (rest : List Node2) (hcurr : curr = s0 ∨ curr ∈ st.pushed)
    (hrest : ∀ n ∈ rest, n = s0 ∨ n ∈ st.pushed) (h : InvCore ctx s0 st)
    (vis' : List (List ℚ)) (tims : List String) :
    InvCore ctx s0 { st with
      pq := rest
      visited := vis'
      expanded := st.expanded ++ [curr]
      timings := tims } := by
  constructor
  · exact hrest
  · intro n hn
    rcases List.mem_append.mp hn with hn' | hn'
    · exact h.exp_src n hn'
    · rw [List.mem_singleton] at hn'
      rw [hn']
      exact hcurr
  · intro n hn
    obtain ⟨p, hp, hs⟩ := h.pushed_succ n hn
    exact ⟨p, List.mem_append_left _ hp, hs⟩
  · exact h.pushed_hist
  · intro q e he
    obtain ⟨m, hm, hq, hb, hs, hpexp⟩ := h.hist_src q e he
    exact ⟨m, hm, hq, hb, hs, List.mem_append_left _ hpexp⟩

theorem invCore_searchLoop (ctx : SearchContext) (s0 : Node2) (e : List ℚ) (d : ℚ)
    (expf : List (List ℚ) → Node2 → ℕ → List Node2)
    (hexp : ∀ vis n k, ∀ m ∈ expf vis n k, IsSucc ctx n m) :
    ∀ (fuel : ℕ) (st : LoopState), InvCore ctx s0 st →
      InvCore ctx s0 (searchLoop ctx e d expf fuel st).2 := by
  intro fuel
  induction fuel with
  | zero => intro st h; exact h
  | succ k ih =>
    intro st h
    unfold searchLoop
    cases hpq : st.pq with
    | nil => exact h
    | cons curr rest =>
      dsimp only
      have hcurr : curr = s0 ∨ curr ∈ st.pushed :=
        h.pq_src curr (by rw [hpq]; exact List.mem_cons_self _ _)
      have hrest : ∀ n ∈ rest, n = s0 ∨ n ∈ st.pushed := fun n hn =>
        h.pq_src n (by rw [hpq]; exact List.mem_cons_of_mem _ hn)
      split_ifs with h1 h2
      · exact h
      · exact ih _ (invCore_popSkip rest hrest h _)
      · refine ih _ (invCore_relaxAll curr _ _ ?_ ?_ ?_)
        · exact List.mem_append_right _ (List.mem_singleton_self curr)
        · intro m hm
          exact hexp _ curr _ m hm
        · exact invCore_expandStep rest hcurr hrest h _ _

/-- The initial loop state (queue holding only the start node) satisfies the
invariant. -/
theorem invCore_init (ctx : SearchContext) (s0 : Node2) :
    InvCore ctx s0 { pq := [s0] } := by
  constructor
  · intro n hn
    exact Or.inl (List.mem_singleton.mp hn)
  · intro n hn
    exact absurd hn (List.not_mem_nil n)
  · intro n hn
    exact absurd hn (List.not_mem_nil n)
  · intro n hn
    exact absurd hn (List.not_mem_nil n)
  · intro q e he
    exact Option.noConfusion he

/-- The result of the loop is either the empty path, or the reconstruction of
the queue head of the final state, which passes the goal test. -/
theorem searchLoop_result_shape (ctx : SearchContext) (e : List ℚ) (d : ℚ)
    (expf : List (List ℚ) → Node2 → ℕ → List Node2) :
    ∀ (fuel : ℕ) (st : LoopState),
      (searchLoop ctx e d expf fuel st).1 = [] ∨
      ∃ curr rest, (searchLoop ctx e d expf fuel st).2.pq = curr :: rest ∧
        state_pos_within curr.state e ctx.graph.spatial_dim d = true ∧
        (searchLoop ctx e d expf fuel st).1 =
          RecoverPath ctx (searchLoop ctx e d expf fuel st).2.hist
            (histSize (searchLoop ctx e d expf fuel st).2.hist + 1) curr := by
  intro fuel
  induction fuel with
  | zero => intro st; exact Or.inl rfl
  | succ k ih =>
    intro st
    unfold searchLoop
    cases hpq : st.pq with
    | nil => exact Or.inl rfl
    | cons curr rest =>
      dsimp only
      split_ifs with h1 h2
      · exact Or.inr ⟨curr, rest, hpq, h1, rfl⟩
      · exact ih _
      · exact ih _

/-- The C3 walk: under the invariant, on an alias-free run, every primitive
collected by `RecoverPath` from a node of the run was collision-checked by the
expander (for any fuel — a cancelled, partial reconstruction included). -/
theorem recoverPath_collision_free (ctx : SearchContext) (s0 : Node2) (st : LoopState)
    (inv : InvCore ctx s0 st) (hNA : AliasFree st.pushed) (hs0 : s0.motion_cost = 0) :
    ∀ (fuel : ℕ) (n : Node2), (n = s0 ∨ n ∈ st.pushed) →
      ∀ mp ∈ RecoverPath ctx st.hist fuel n, ctx.is_mp_collision_free mp = true := by
  intro fuel
  induction fuel with
  | zero =>
    intro n _ mp hmp
    exact absurd hmp (List.not_mem_nil mp)
  | succ k ih =>
    intro n hn mp hmp
    unfold RecoverPath at hmp
    split_ifs at hmp with h0
    · exact absurd hmp (List.not_mem_nil mp)
    · have hnp : n ∈ st.pushed := by
        rcases hn with rfl | h'
        · exact absurd hs0 h0
        · exact h'
      obtain ⟨e, he, _⟩ := inv.pushed_hist n hnp
      have hfind : histFind st.hist n.state = e := by
        unfold histFind
        rw [he]
        rfl
      obtain ⟨n', hn'p, hq', hbest, hsucc, hpexp⟩ := inv.hist_src _ e he
      obtain ⟨hstate, hidx⟩ := hNA n hnp n' hn'p (by rw [hq'])
      rw [hfind] at hmp
      rcases List.mem_append.mp hmp with hmp' | hmp'
      · exact ih e.parent_node (inv.exp_src _ hpexp) mp hmp'
      · rw [List.mem_singleton] at hmp'
        subst hmp'
        obtain ⟨i, hn'i, hedge, hcoll⟩ := hsucc
        have hni : n.state_index = i := by
          rw [hidx, hn'i]
          rfl
        show ctx.is_mp_collision_free (succMp ctx e.parent_node n.state_index) = true
        rw [hni]
        exact hcoll

/-- The loop-level statement of C3. -/
theorem searchLoop_path_collision_free (ctx : SearchContext) (s0 : Node2) (e : List ℚ)
    (d : ℚ) (expf : List (List ℚ) → Node2 → ℕ → List Node2)
    (hexp : ∀ vis n k, ∀ m ∈ expf vis n k, IsSucc ctx n m) (fuel : ℕ) (st : LoopState)
    (hinv : InvCore ctx s0 st) (hs0 : s0.motion_cost = 0)
    (hNA : AliasFree (searchLoop ctx e d expf fuel st).2.pushed) :
    ∀ mp ∈ (searchLoop ctx e d expf fuel st).1, ctx.is_mp_collision_free mp = true := by
  intro mp hmp
  rcases searchLoop_result_shape ctx e d expf fuel st with hsh | ⟨curr, rest, hpq, _, hpath⟩
  · rw [hsh] at hmp
    exact absurd hmp (List.not_mem_nil mp)
  · have hInv := invCore_searchLoop ctx s0 e d expf hexp fuel st hinv
    rw [hpath] at hmp
    exact recoverPath_collision_free ctx s0 _ hInv hNA hs0 _ curr
      (hInv.pq_src curr (by rw [hpq]; exact List.mem_cons_self _ _)) mp hmp

/-- C3 (amended): on an alias-free run — no two pushed nodes have
quantized-equal but different (state, state_index) — every motion primitive in
the path returned by `Search` satisfies `is_collision_free`: the primitives
`RecoverPath` re-fetches via `get_mp_between_indices` and re-translates at the
parent's state are exactly the collision-checked primitives the expander
emitted. Without alias-freedom, an overwritten history entry can make
`RecoverPath` fetch a primitive that was never collision-checked (see the
counterexample). -/
theorem search_path_collision_free (ctx : SearchContext) (sched : ℕ → List (ℕ × ℕ))
    (fuel : ℕ) (visited0 : List (List ℚ)) (start_state end_state : List ℚ)
    (d : ℚ) (parallel : Bool)
    (hNA : AliasFree
      (Search ctx sched fuel visited0 start_state end_state d parallel).2.pushed) :
    ∀ mp ∈ (Search ctx sched fuel visited0 start_state end_state d parallel).1,
      ctx.is_mp_collision_free mp = true := by
  intro mp hmp
  unfold Search at hmp hNA
  by_cases h : state_pos_within start_state end_state ctx.graph.spatial_dim d = true
  · rw [if_pos h] at hmp
    exact absurd hmp (List.not_mem_nil mp)
  · rw [if_neg h] at hmp hNA
    have hexp : ∀ vis (n : Node2) k, ∀ m ∈ (if parallel
        then ExpandPar ctx vis n (sched k) else Expand ctx vis n), IsSucc ctx n m := by
      intro vis n k m hm
      by_cases hp : parallel
      · rw [if_pos hp] at hm
        exact mem_expandPar_isSucc hm
      · rw [if_neg hp] at hm
        exact mem_expand_isSucc hm
    exact searchLoop_path_collision_free ctx (startNode ctx start_state) end_state d _
      hexp fuel _ (invCore_init ctx (startNode ctx start_state)) rfl hNA mp hmp

/-- The aliasing graph: two quantized-equal but distinct states (positions
5.001 and 5.002, both quantizing to 500) are reached as different rows (2 and
3) from different parents; the cheaper one overwrites the shared history entry,
and `RecoverPath`, walking from the popped row-2 node with the row-3 entry's
parent, fetches the never-checked (and colliding) primitive `[2] → [7]`
(`edges(2,1) = 2`). -/
def aliasGraph : MotionPrimitiveGraph :=
  { edges := [[-1, -1, -1, -1, -1],
              [0, -1, -1, -1, -1],
              [1, 2, -1, -1, -1],
              [-1, 3, -1, -1, -1],
              [-1, -1, 4, -1, -1]]
    mps := [ { cost := 1, spatial_dim := 1, start_state := [0], end_state := [2] },
             { cost := 4, spatial_dim := 1, start_state := [0], end_state := [5001 / 1000] },
             { cost := 1, spatial_dim := 1, start_state := [2], end_state := [7] },
             { cost := 2, spatial_dim := 1, start_state := [2], end_state := [5002 / 1000] },
             { cost := 1, spatial_dim := 1, start_state := [5001 / 1000], end_state := [9] } ]
    spatial_dim := 1 }

def aliasCtx : SearchContext :=
  { graph := aliasGraph
    heuristic := fun s => if s = [5002 / 1000] then 3 else 0
    is_mp_collision_free := fun mp =>
      decide ¬(mp.start_state = [(2 : ℚ)] ∧ mp.end_state = [(7 : ℚ)]) }

/-- C3 (counterexample): the path returned by `Search` on the aliasing graph
contains a primitive on which the collision oracle returns `false` — the
oracle rejected `[2] → [7]` during expansion, yet `RecoverPath` fetches it. -/
theorem path_collision_free_refuted :
    ¬ ∀ mp ∈ (Search aliasCtx (fun _ => []) 20 [] [0] [9] (1 / 2) false).1,
      aliasCtx.is_mp_collision_free mp = true := by
  decide

/-- Witness for `search_path_collision_free` on the tie graph's alias-free
serial run: the returned primitive is collision free. -/
theorem search_path_collision_free_witness :
    tieCtx.is_mp_collision_free
      { cost := 1, spatial_dim := 1, start_state := [0], end_state := [10] } = true :=
  search_path_collision_free tieCtx (fun _ => []) 10 [] [0] [10] (1 / 2) false
    (by unfold AliasFree; decide) _ (by decide)

/-! ### Positive costs, history length, and the termination measure -/

/-- Every stored primitive behind an actual edge has strictly positive cost. -/
def costsPos (ctx : SearchContext) : Prop :=
  ∀ i j, 0 ≤ ctx.graph.edgeAt i j → 0 < (ctx.graph.get_mp_between_indices i j).cost

/-- All pushed nodes have strictly positive motion cost. -/
def PushedPos (st : LoopState) : Prop := ∀ n ∈ st.pushed, 0 < n.motion_cost

/-- One history binding is written per push. -/
def HistLen (st : LoopState) : Prop := histSize st.hist = st.pushed.length

theorem translate_cost (mp : MotionPrimitive) (s : List ℚ) :
    (mp.translate s).cost = mp.cost := rfl

theorem succ_cost_pos {ctx : SearchContext} {p n : Node2} (hpos : costsPos ctx)
    (h : IsSucc ctx p n) (hp : 0 ≤ p.motion_cost) : 0 < n.motion_cost := by
  obtain ⟨i, rfl, hedge, _⟩ := h
  show 0 < p.motion_cost + (succMp ctx p i).cost
  have : (succMp ctx p i).cost =
      (ctx.graph.get_mp_between_indices i (ctx.graph.NormIndex p.state_index)).cost := rfl
  rw [this]
  exact add_pos_of_nonneg_of_pos hp (hpos _ _ hedge)

theorem pushedPos_relaxOne {ctx : SearchContext} {curr n : Node2} {st : LoopState}
    (hpos : costsPos ctx) (hc : 0 ≤ curr.motion_cost) (hsucc : IsSucc ctx curr n)
    (h : PushedPos st) : PushedPos (relaxOne curr st n) := by
  unfold relaxOne
  split_ifs with hcond
  · intro m hm
    rcases List.mem_append.mp hm with hm' | hm'
    · exact h m hm'
    · rw [List.mem_singleton] at hm'
      rw [hm']
      exact succ_cost_pos hpos hsucc hc
  · exact h

theorem pushedPos_relaxAll {ctx : SearchContext} (curr : Node2) (hpos : costsPos ctx)
    (hc : 0 ≤ curr.motion_cost) :
    ∀ (l : List Node2) (st : LoopState), (∀ n ∈ l, IsSucc ctx curr n) →
      PushedPos st → PushedPos (relaxAll curr st l)
  | [], _, _, h => h
  | n :: ns, st, hl, h => by
    show PushedPos (relaxAll curr (relaxOne curr st n) ns)
    exact pushedPos_relaxAll curr hpos hc ns _
      (fun m hm => hl m (List.mem_cons_of_mem _ hm))
      (pushedPos_relaxOne hpos hc (hl n (List.mem_cons_self n ns)) h)

theorem pushedPos_searchLoop (ctx : SearchContext) (s0 : Node2) (e : List ℚ) (d : ℚ)
    (expf : List (List ℚ) → Node2 → ℕ → List Node2)
    (hexp : ∀ vis n k, ∀ m ∈ expf vis n k, IsSucc ctx n m)
    (hpos : costsPos ctx) (hs0 : s0.motion_cost = 0) :
    ∀ (fuel : ℕ) (st : LoopState), InvCore ctx s0 st → PushedPos st →
      PushedPos (searchLoop ctx e d expf fuel st).2 := by
  intro fuel
  induction fuel with
  | zero => intro st _ h; exact h
  | succ k ih =>
    intro st hi h
    unfold searchLoop
    cases hpq : st.pq with
    | nil => exact h
    | cons curr rest =>
      dsimp only
      have hcurr : curr = s0 ∨ curr ∈ st.pushed :=
        hi.pq_src curr (by rw [hpq]; exact List.mem_cons_self _ _)
      have hrest : ∀ n ∈ rest, n = s0 ∨ n ∈ st.pushed := fun n hn =>
        hi.pq_src n (by rw [hpq]; exact List.mem_cons_of_mem _ hn)
      have hcge : 0 ≤ curr.motion_cost := by
        rcases hcurr with rfl | h'
        · rw [hs0]
        · exact le_of_lt (h curr h')
      split_ifs with h1 h2
      · exact h
      · exact ih _ (invCore_popSkip rest hrest hi _) h
      · exact ih _
          (invCore_relaxAll curr _ _
            (List.mem_append_right _ (List.mem_singleton_self curr))
            (fun m hm => hexp _ curr _ m hm)
            (invCore_expandStep rest hcurr hrest hi _ _))
          (pushedPos_relaxAll curr hpos hcge _ _ (fun m hm => hexp _ curr _ m hm) h)

theorem histLen_relaxOne (curr : Node2) (st : LoopState) (n : Node2)
    (h : HistLen st) : HistLen (relaxOne curr st n) := by
  unfold relaxOne
  split_ifs with hc
  · show ((quantize n.state, ⟨curr, (n.motion_cost : WithTop ℚ)⟩) :: st.hist).length =
      (st.pushed ++ [n]).length
    unfold HistLen histSize at h
    rw [List.length_cons, List.length_append, h]
    simp
  · exact h

theorem histLen_relaxAll (curr : Node2) :
    ∀ (l : List Node2) (st : LoopState), HistLen st → HistLen (relaxAll curr st l)
  | [], _, h => h
  | n :: ns, st, h => by
    show HistLen (relaxAll curr (relaxOne curr st n) ns)
    exact histLen_relaxAll curr ns _ (histLen_relaxOne curr st n h)

theorem histLen_searchLoop (ctx : SearchContext) (e : List ℚ) (d : ℚ)
    (expf : List (List ℚ) → Node2 → ℕ → List Node2) :
    ∀ (fuel : ℕ) (st : LoopState), HistLen st →
      HistLen (searchLoop ctx e d expf fuel st).2 := by
  intro fuel
  induction fuel with
  | zero => intro st h; exact h
  | succ k ih =>
    intro st h
    unfold searchLoop
    cases hpq : st.pq with
    | nil => exact h
    | cons curr rest =>
      dsimp only
      split_ifs with h1 h2
      · exact h
      · exact ih _ h
      · exact ih _ (histLen_relaxAll curr _ _ h)

/-- The termination measure: the parent of a strictly cheaper cost class counts
strictly fewer pushed nodes below it. -/
theorem countP_parent_lt {pushed : List Node2} {p n : Node2} (hp : p ∈ pushed)
    (hlt : p.motion_cost < n.motion_cost) :
    pushed.countP (fun m => decide (m.motion_cost < p.motion_cost)) <
      pushed.countP (fun m => decide (m.motion_cost < n.motion_cost)) := by
  induction pushed with
  | nil => cases hp
  | cons x xs ih =>
    rw [List.countP_cons, List.countP_cons]
    have hmono : xs.countP (fun m => decide (m.motion_cost < p.motion_cost)) ≤
        xs.countP (fun m => decide (m.motion_cost < n.motion_cost)) := by
      refine List.countP_mono_left fun m _ hm => ?_
      exact decide_eq_true (lt_trans (of_decide_eq_true hm) hlt)
    rcases List.mem_cons.mp hp with rfl | hp'
    · have e1 : (decide (p.motion_cost < p.motion_cost) : Bool) = false := by
        simp
      have e2 : (decide (p.motion_cost < n.motion_cost) : Bool) = true :=
        decide_eq_true hlt
      rw [e1, e2, if_neg Bool.false_ne_true, if_pos rfl]
      omega
    · have := ih hp'
      have hxm : (if decide (x.motion_cost < p.motion_cost) = true then 1 else 0) ≤
          (if decide (x.motion_cost < n.motion_cost) = true then 1 else 0) := by
        split_ifs with hx1 hx2
        · exact le_refl 1
        · exact absurd (decide_eq_true (lt_trans (of_decide_eq_true hx1) hlt)) (by simp [hx2])
        · omega
        · exact le_refl 0
      omega

/-- Reconstruction from a zero-cost node yields the empty path for any fuel. -/
theorem recoverPath_zero_cost (ctx : SearchContext) (h : PathHistory) :
    ∀ (fuel : ℕ) (n : Node2), n.motion_cost = 0 → RecoverPath ctx h fuel n = []
  | 0, _, _ => rfl
  | fuel + 1, n, h0 => by
    unfold RecoverPath
    rw [if_pos h0]

/-! ### Primitive chains: the sequences the expander can realize (for C1) -/

/-- A primitive sequence (list of rows) is valid from a node: each step has an
edge and its translated primitive is collision free. This is exactly the
composition of the expander's body (graph_search2.cpp:46-64) without the
visited filter. -/
def chainValid (ctx : SearchContext) : Node2 → List ℕ → Prop
  | _, [] => True
  | p, i :: rest =>
    0 ≤ ctx.graph.edgeAt i (ctx.graph.NormIndex p.state_index) ∧
    ctx.is_mp_collision_free (succMp ctx p i) = true ∧
    chainValid ctx (SuccNode ctx p i) rest

/-- The node reached by running a primitive sequence. -/
def chainRun (ctx : SearchContext) : Node2 → List ℕ → Node2
  | p, [] => p
  | p, i :: rest => chainRun ctx (SuccNode ctx p i) rest

/-- The total motion cost of a primitive sequence. -/
def chainCost (ctx : SearchContext) : Node2 → List ℕ → ℚ
  | _, [] => 0
  | p, i :: rest => (succMp ctx p i).cost + chainCost ctx (SuccNode ctx p i) rest

theorem succMp_congr (ctx : SearchContext) {a b : Node2} (i : ℕ)
    (hst : a.state = b.state) (hix : a.state_index = b.state_index) :
    succMp ctx a i = succMp ctx b i := by
  unfold succMp
  rw [hst, hix]

theorem chainRun_append (ctx : SearchContext) :
    ∀ (l : List ℕ) (p : Node2) (i : ℕ),
      chainRun ctx p (l ++ [i]) = SuccNode ctx (chainRun ctx p l) i
  | [], _, _ => rfl
  | j :: js, p, i => chainRun_append ctx js (SuccNode ctx p j) i

theorem chainValid_append (ctx : SearchContext) :
    ∀ (l : List ℕ) (p : Node2) (i : ℕ), chainValid ctx p l →
      0 ≤ ctx.graph.edgeAt i (ctx.graph.NormIndex (chainRun ctx p l).state_index) →
      ctx.is_mp_collision_free (succMp ctx (chainRun ctx p l) i) = true →
      chainValid ctx p (l ++ [i])
  | [], _, _, _, he, hc => ⟨he, hc, trivial⟩
  | j :: js, p, i, hv, he, hc =>
    ⟨hv.1, hv.2.1, chainValid_append ctx js (SuccNode ctx p j) i hv.2.2 he hc⟩

theorem chainCost_append (ctx : SearchContext) :
    ∀ (l : List ℕ) (p : Node2) (i : ℕ),
      chainCost ctx p (l ++ [i]) =
        chainCost ctx p l + (succMp ctx (chainRun ctx p l) i).cost
  | [], p, i => by
    show (succMp ctx p i).cost + 0 = 0 + (succMp ctx p i).cost
    ring
  | j :: js, p, i => by
    show (succMp ctx p j).cost + chainCost ctx (SuccNode ctx p j) (js ++ [i]) =
      ((succMp ctx p j).cost + chainCost ctx (SuccNode ctx p j) js) +
        (succMp ctx (chainRun ctx (SuccNode ctx p j) js) i).cost
    rw [chainCost_append ctx js (SuccNode ctx p j) i]
    ring

theorem pathCost_append_single (l : List MotionPrimitive) (m : MotionPrimitive) :
    pathCost (l ++ [m]) = pathCost l + m.cost := by
  unfold pathCost
  rw [List.map_append, List.sum_append]
  simp

theorem recoverPath_succ_ne (ctx : SearchContext) (h : PathHistory) (fuel : ℕ)
    (n : Node2) (h0 : ¬ n.motion_cost = 0) :
    RecoverPath ctx h (fuel + 1) n =
      RecoverPath ctx h fuel (histFind h n.state).parent_node ++
        [GetPrimitiveBetween ctx (histFind h n.state).parent_node n] := by
  show (if n.motion_cost = 0 then ([] : List MotionPrimitive)
    else RecoverPath ctx h fuel (histFind h n.state).parent_node ++
      [GetPrimitiveBetween ctx (histFind h n.state).parent_node n]) = _
  rw [if_neg h0]

/-- The C1 walk: under the invariant, on an alias-free run with positive edge
costs, the path reconstructed from any node of the run realizes an actual
valid (reachable, collision-free) primitive sequence from the start node,
ending exactly at the node's state, with matching total cost. -/
theorem recoverPath_realizes_chain (ctx : SearchContext) (s0 : Node2) (st : LoopState)
    (inv : InvCore ctx s0 st) (hNA : AliasFree st.pushed) (hpos : costsPos ctx)
    (hpp : PushedPos st) (hs0 : s0.motion_cost = 0) :
    ∀ (fuel : ℕ) (n : Node2), (n = s0 ∨ n ∈ st.pushed) →
      st.pushed.countP (fun m => decide (m.motion_cost < n.motion_cost)) < fuel →
      ∃ idxs, chainValid ctx s0 idxs ∧
        (chainRun ctx s0 idxs).state = n.state ∧
        (chainRun ctx s0 idxs).state_index = n.state_index ∧
        pathCost (RecoverPath ctx st.hist fuel n) = chainCost ctx s0 idxs := by
  intro fuel
  induction fuel with
  | zero =>
    intro n _ hcnt
    exact absurd hcnt (Nat.not_lt_zero _)
  | succ k ih =>
    intro n hn hcnt
    by_cases h0 : n.motion_cost = 0
    · have hns : n = s0 := by
        rcases hn with rfl | h'
        · rfl
        · exact absurd h0 (ne_of_gt (hpp n h'))
      refine ⟨[], trivial, ?_, ?_, ?_⟩
      · rw [hns]
        rfl
      · rw [hns]
        rfl
      · rw [recoverPath_zero_cost ctx st.hist (k + 1) n h0]
        rfl
    · have hnp : n ∈ st.pushed := by
        rcases hn with rfl | h'
        · exact absurd hs0 h0
        · exact h'
      obtain ⟨e, he, hle⟩ := inv.pushed_hist n hnp
      have hfind : histFind st.hist n.state = e := by
        unfold histFind
        rw [he]
        rfl
      obtain ⟨n', hn'p, hq', hbest, hsucc, hpexp⟩ := inv.hist_src _ e he
      obtain ⟨hstate, hidx⟩ := hNA n hnp n' hn'p (by rw [hq'])
      obtain ⟨i, hn'i, hedge, hcoll⟩ := hsucc
      have hni : n.state_index = i := by
        rw [hidx, hn'i]
        rfl
      -- cost relations for the termination measure
      have hmpcost : 0 < (succMp ctx e.parent_node i).cost := by
        show 0 < (ctx.graph.get_mp_between_indices i
          (ctx.graph.NormIndex e.parent_node.state_index)).cost
        exact hpos _ _ hedge
      have hn'cost : n'.motion_cost = e.parent_node.motion_cost +
          (succMp ctx e.parent_node i).cost := by
        rw [hn'i]
        rfl
      have hn'le : n'.motion_cost ≤ n.motion_cost := by
        have : (n'.motion_cost : WithTop ℚ) ≤ (n.motion_cost : WithTop ℚ) := by
          rw [← hbest]
          exact hle
        exact_mod_cast this
      have hplt : e.parent_node.motion_cost < n.motion_cost := by
        calc e.parent_node.motion_cost
            < e.parent_node.motion_cost + (succMp ctx e.parent_node i).cost :=
              lt_add_of_pos_right _ hmpcost
          _ = n'.motion_cost := hn'cost.symm
          _ ≤ n.motion_cost := hn'le
      rw [recoverPath_succ_ne ctx st.hist k n h0, hfind, pathCost_append_single]
      have hGB : GetPrimitiveBetween ctx e.parent_node n = succMp ctx e.parent_node i := by
        show succMp ctx e.parent_node n.state_index = succMp ctx e.parent_node i
        rw [hni]
      rcases inv.exp_src _ hpexp with hps0 | hppu
      · -- the parent is the start node: one-step chain
        rw [recoverPath_zero_cost ctx st.hist k e.parent_node (by rw [hps0, hs0])]
        refine ⟨[i], ?_, ?_, ?_, ?_⟩
        · exact ⟨by rw [← hps0]; exact hedge, by rw [← hps0]; exact hcoll, trivial⟩
        · show (SuccNode ctx s0 i).state = n.state
          rw [← hps0, ← hn'i]
          exact hstate.symm
        · show (SuccNode ctx s0 i).state_index = n.state_index
          rw [hni]
          rfl
        · show pathCost [] + (GetPrimitiveBetween ctx e.parent_node n).cost =
            (succMp ctx s0 i).cost + 0
          rw [hGB, ← hps0]
          show 0 + _ = _ + 0
          ring
      · -- the parent was pushed: extend its chain by one step
        have hcntp : st.pushed.countP
            (fun m => decide (m.motion_cost < e.parent_node.motion_cost)) < k := by
          have := countP_parent_lt hppu hplt
          omega
        obtain ⟨idxs, hval, hst, hix, hcost⟩ := ih e.parent_node (Or.inr hppu) hcntp
        refine ⟨idxs ++ [i], ?_, ?_, ?_, ?_⟩
        · refine chainValid_append ctx idxs s0 i hval ?_ ?_
          · rw [hix]
            exact hedge
          · rw [succMp_congr ctx i hst hix]
            exact hcoll
        · rw [chainRun_append]
          show (succMp ctx (chainRun ctx s0 idxs) i).end_state = n.state
          rw [succMp_congr ctx i hst hix]
          calc (succMp ctx e.parent_node i).end_state
              = n'.state := by rw [hn'i]; rfl
            _ = n.state := hstate.symm
        · rw [chainRun_append]
          exact hni.symm
        · rw [chainCost_append, hcost, hGB, succMp_congr ctx i hst hix]

/-- The expander used by `Search` only emits expander-body successors,
whatever the mode and schedule. -/
theorem searchExpander_isSucc (ctx : SearchContext) (sched : ℕ → List (ℕ × ℕ))
    (parallel : Bool) :
    ∀ vis (n : Node2) k, ∀ m ∈ (if parallel then ExpandPar ctx vis n (sched k)
      else Expand ctx vis n), IsSucc ctx n m := by
  intro vis n k m hm
  by_cases hp : parallel
  · rw [if_pos hp] at hm
    exact mem_expandPar_isSucc hm
  · rw [if_neg hp] at hm
    exact mem_expand_isSucc hm

/-- The loop-level statement of (amended) C1. -/
theorem searchLoop_realizes_chain (ctx : SearchContext) (s0 : Node2) (e : List ℚ)
    (d : ℚ) (expf : List (List ℚ) → Node2 → ℕ → List Node2)
    (hexp : ∀ vis n k, ∀ m ∈ expf vis n k, IsSucc ctx n m) (hpos : costsPos ctx)
    (fuel : ℕ) (st : LoopState) (hinv : InvCore ctx s0 st) (hpp : PushedPos st)
    (hlen : HistLen st) (hs0 : s0.motion_cost = 0)
    (hNA : AliasFree (searchLoop ctx e d expf fuel st).2.pushed)
    (hne : (searchLoop ctx e d expf fuel st).1 ≠ []) :
    ∃ idxs, chainValid ctx s0 idxs ∧
      state_pos_within (chainRun ctx s0 idxs).state e ctx.graph.spatial_dim d = true ∧
      pathCost (searchLoop ctx e d expf fuel st).1 = chainCost ctx s0 idxs := by
  rcases searchLoop_result_shape ctx e d expf fuel st with hsh | ⟨curr, _, hpq, hgoal, hpath⟩
  · exact absurd hsh hne
  · have hinvF := invCore_searchLoop ctx s0 e d expf hexp fuel st hinv
    have hppF := pushedPos_searchLoop ctx s0 e d expf hexp hpos hs0 fuel st hinv hpp
    have hlenF := histLen_searchLoop ctx e d expf fuel st hlen
    have hcurr := hinvF.pq_src curr (by rw [hpq]; exact List.mem_cons_self _ _)
    have hcnt : (searchLoop ctx e d expf fuel st).2.pushed.countP
        (fun m => decide (m.motion_cost < curr.motion_cost)) <
        histSize (searchLoop ctx e d expf fuel st).2.hist + 1 := by
      have h1 : (searchLoop ctx e d expf fuel st).2.pushed.countP
          (fun m => decide (m.motion_cost < curr.motion_cost)) ≤
          (searchLoop ctx e d expf fuel st).2.pushed.length :=
        List.countP_le_length _
      unfold HistLen at hlenF
      omega
    obtain ⟨idxs, hval, hstt, _, hcost⟩ := recoverPath_realizes_chain ctx s0 _
      hinvF hNA hpos hppF hs0 _ curr hcurr hcnt
    refine ⟨idxs, hval, ?_, ?_⟩
    · rw [hstt]
      exact hgoal
    · rw [hpath]
      exact hcost

/-- C1 (amended): if the primitive costs behind actual edges are positive and
the run is alias-free, a non-empty path returned by `Search` realizes an
actual collision-free primitive sequence, reachable from the start node, whose
final state lies within `distance_threshold` of `end_state`, and the path's
total motion cost equals that sequence's cost. Minimality does NOT hold for
merely admissible heuristics: the closed-set skip (graph_search2.cpp:53 and
211-215) never re-expands a state, so an admissible but inconsistent heuristic
can make the search return a strictly more expensive path (see the
counterexample); A* optimality additionally needs consistency. -/
theorem search_path_realizes_chain (ctx : SearchContext) (sched : ℕ → List (ℕ × ℕ))
    (fuel : ℕ) (visited0 : List (List ℚ)) (start_state end_state : List ℚ)
    (d : ℚ) (parallel : Bool) (hpos : costsPos ctx)
    (hNA : AliasFree
      (Search ctx sched fuel visited0 start_state end_state d parallel).2.pushed)
    (hne : (Search ctx sched fuel visited0 start_state end_state d parallel).1 ≠ []) :
    ∃ idxs, chainValid ctx (startNode ctx start_state) idxs ∧
      state_pos_within (chainRun ctx (startNode ctx start_state) idxs).state end_state
        ctx.graph.spatial_dim d = true ∧
      pathCost (Search ctx sched fuel visited0 start_state end_state d parallel).1 =
        chainCost ctx (startNode ctx start_state) idxs := by
  unfold Search at hNA hne ⊢
  by_cases h : state_pos_within start_state end_state ctx.graph.spatial_dim d = true
  · rw [if_pos h] at hne
    exact absurd rfl hne
  · rw [if_neg h] at hNA hne ⊢
    exact searchLoop_realizes_chain ctx (startNode ctx start_state) end_state d _
      (searchExpander_isSucc ctx sched parallel) hpos fuel _
      (invCore_init ctx (startNode ctx start_state))
      (fun n hn => absurd hn (List.not_mem_nil n)) rfl rfl hNA hne

/-- Any nonnegative edge entry lies inside a bounding box of the edge matrix. -/
theorem edgeAt_nonneg_bounds (g : MotionPrimitiveGraph) (B : ℕ)
    (hrow : g.edges.length ≤ B) (hcol : ∀ row ∈ g.edges, row.length ≤ B)
    {i j : ℕ} (h : 0 ≤ g.edgeAt i j) : i < B ∧ j < B := by
  unfold MotionPrimitiveGraph.edgeAt at h
  by_cases hi : i < g.edges.length
  · have hmem : g.edges.getD i [] ∈ g.edges := by
      rw [List.getD_eq_getElem g.edges [] hi]
      exact List.getElem_mem hi
    by_cases hj : j < (g.edges.getD i []).length
    · exact ⟨lt_of_lt_of_le hi hrow, lt_of_lt_of_le hj (hcol _ hmem)⟩
    · rw [List.getD_eq_default _ _ (le_of_not_lt hj)] at h
      exact absurd h (by decide)
  · rw [List.getD_eq_default _ _ (le_of_not_lt hi),
      List.getD_eq_default _ _ (Nat.zero_le j)] at h
    exact absurd h (by decide)

theorem costsPos_tieCtx : costsPos tieCtx := by
  intro i j h
  obtain ⟨hi, hj⟩ := edgeAt_nonneg_bounds tieCtx.graph 3 (by decide)
    (by decide) h
  interval_cases i <;> interval_cases j <;> revert h <;> decide

/-- Witness for `search_path_realizes_chain` on the tie graph: the returned
cost-1 path realizes a one-primitive reachable sequence ending at the goal. -/
theorem search_path_realizes_chain_witness :
    ∃ idxs, chainValid tieCtx (startNode tieCtx [0]) idxs ∧
      state_pos_within (chainRun tieCtx (startNode tieCtx [0]) idxs).state [10]
        tieCtx.graph.spatial_dim (1 / 2) = true ∧
      pathCost (Search tieCtx (fun _ => []) 10 [] [0] [10] (1 / 2) false).1 =
        chainCost tieCtx (startNode tieCtx [0]) idxs :=
  search_path_realizes_chain tieCtx (fun _ => []) 10 [] [0] [10] (1 / 2) false
    costsPos_tieCtx (by unfold AliasFree; decide) (by decide)

/-! ### Claim C1: admissibility alone does not give optimality -/

/-- An admissible heuristic: nonnegative, and a lower bound on the cost of
every valid primitive sequence that ends within `distance_threshold` of
`end_state`, from any node. -/
def Admissible (ctx : SearchContext) (end_state : List ℚ) (d : ℚ) : Prop :=
  (∀ s, 0 ≤ ctx.heuristic s) ∧
  ∀ (n : Node2) (idxs : List ℕ), chainValid ctx n idxs →
    state_pos_within (chainRun ctx n idxs).state end_state ctx.graph.spatial_dim d
      = true →
    ctx.heuristic n.state ≤ chainCost ctx n idxs

theorem chainCost_nonneg (ctx : SearchContext) (hpos : costsPos ctx) :
    ∀ (idxs : List ℕ) (n : Node2), chainValid ctx n idxs → 0 ≤ chainCost ctx n idxs
  | [], _, _ => le_refl 0
  | i :: rest, n, hv => by
    show 0 ≤ (succMp ctx n i).cost + chainCost ctx (SuccNode ctx n i) rest
    have h1 : 0 < (succMp ctx n i).cost := hpos _ _ hv.1
    have h2 := chainCost_nonneg ctx hpos rest (SuccNode ctx n i) hv.2.2
    linarith

/-- The graph of the optimality counterexample. Positions: start 0 (row 0),
vertex A at 1 (row 1), vertex B at 2 (row 2), goal vertex at 50 (row 3).
Edges: start→A cost 3, start→B cost 1, B→A cost 1, A→goal cost 10; so the
cheapest route to the goal is start→B→A→goal with cost 12, while the direct
start→A→goal route costs 13. -/
def icGraph : MotionPrimitiveGraph :=
  { edges := [[-1, -1, -1, -1], [0, -1, 2, -1], [1, -1, -1, -1], [-1, 3, -1, -1]]
    mps := [ { cost := 3, spatial_dim := 1, start_state := [0], end_state := [1] },
             { cost := 1, spatial_dim := 1, start_state := [0], end_state := [2] },
             { cost := 1, spatial_dim := 1, start_state := [2], end_state := [1] },
             { cost := 10, spatial_dim := 1, start_state := [1], end_state := [50] } ]
    spatial_dim := 1 }

/-- The heuristic is admissible (11 at state `[2]` is exactly the remaining
cost of `B→A→goal`) but inconsistent: `h([2]) = 11 > 1 + h([1]) = 1`. -/
def icCtx : SearchContext :=
  { graph := icGraph
    heuristic := fun s => if s = [(2 : ℚ)] then 11 else 0
    is_mp_collision_free := fun _ => true }

theorem costsPos_icCtx : costsPos icCtx := by
  intro i j h
  obtain ⟨hi, hj⟩ := edgeAt_nonneg_bounds icCtx.graph 4 (by decide)
    (by decide) h
  interval_cases i <;> interval_cases j <;> revert h <;> decide

/-- No edges leave column 3 (the goal vertex): valid chains from a row-3 node
are empty. -/
theorem ic_from3 (idxs : List ℕ) (n : Node2) (h3 : n.state_index = 3)
    (hv : chainValid icCtx n idxs) : idxs = [] := by
  cases idxs with
  | nil => rfl
  | cons i rest =>
    exfalso
    have he := hv.1
    rw [h3] at he
    obtain ⟨hi, _⟩ := edgeAt_nonneg_bounds icCtx.graph 4 (by decide)
      (by decide) he
    interval_cases i <;> revert he <;> decide

/-- Valid chains from a row-1 node at position `x` either stay put or take the
single edge to the goal vertex, landing at `x + 49` for cost 10. -/
theorem ic_from1 (idxs : List ℕ) (n : Node2) (x : ℚ) (h1 : n.state_index = 1)
    (hs : n.state = [x]) (hv : chainValid icCtx n idxs) :
    ((chainRun icCtx n idxs).state = [x] ∧ chainCost icCtx n idxs = 0) ∨
    ((chainRun icCtx n idxs).state = [x + 49] ∧ chainCost icCtx n idxs = 10) := by
  cases idxs with
  | nil => exact Or.inl ⟨hs, rfl⟩
  | cons i rest =>
    obtain ⟨he, _, hv3⟩ := hv
    rw [h1] at he
    obtain ⟨hi, _⟩ := edgeAt_nonneg_bounds icCtx.graph 4 (by decide)
      (by decide) he
    have hi3 : i = 3 := by
      interval_cases i <;> revert he <;> first | decide | (intro _; rfl)
    subst hi3
    have hss : (SuccNode icCtx n 3).state = [x + 49] := by
      show ((icCtx.graph.get_mp_between_indices 3
        (icCtx.graph.NormIndex n.state_index)).translate n.state).end_state = [x + 49]
      rw [h1, hs]
      show [50 + (x - 1)] = [x + 49]
      norm_num
      ring
    have hrest : rest = [] := ic_from3 rest (SuccNode icCtx n 3) rfl hv3
    subst hrest
    refine Or.inr ⟨?_, ?_⟩
    · exact hss
    · show (succMp icCtx n 3).cost + 0 = 10
      have : (succMp icCtx n 3).cost = 10 := by
        show ((icCtx.graph.get_mp_between_indices 3
          (icCtx.graph.NormIndex n.state_index)).translate n.state).cost = 10
        rw [h1]
        rfl
      rw [this]
      norm_num

/-- Valid chains from a row-2 node at position `x`: stay, hop to row 1 at
`x - 1` for cost 1, or continue to the goal vertex at `x + 48` for cost 11. -/
theorem ic_from2 (idxs : List ℕ) (n : Node2) (x : ℚ) (h2 : n.state_index = 2)
    (hs : n.state = [x]) (hv : chainValid icCtx n idxs) :
    ((chainRun icCtx n idxs).state = [x] ∧ chainCost icCtx n idxs = 0) ∨
    ((chainRun icCtx n idxs).state = [x - 1] ∧ chainCost icCtx n idxs = 1) ∨
    ((chainRun icCtx n idxs).state = [x + 48] ∧ chainCost icCtx n idxs = 11) := by
  cases idxs with
  | nil => exact Or.inl ⟨hs, rfl⟩
  | cons i rest =>
    obtain ⟨he, _, hv3⟩ := hv
    rw [h2] at he
    obtain ⟨hi, _⟩ := edgeAt_nonneg_bounds icCtx.graph 4 (by decide)
      (by decide) he
    have hi1 : i = 1 := by
      interval_cases i <;> revert he <;> first | decide | (intro _; rfl)
    subst hi1
    have hss : (SuccNode icCtx n 1).state = [x - 1] := by
      show ((icCtx.graph.get_mp_between_indices 1
        (icCtx.graph.NormIndex n.state_index)).translate n.state).end_state = [x - 1]
      rw [h2, hs]
      show [1 + (x - 2)] = [x - 1]
      norm_num
      ring
    have hc1 : (succMp icCtx n 1).cost = 1 := by
      show ((icCtx.graph.get_mp_between_indices 1
        (icCtx.graph.NormIndex n.state_index)).translate n.state).cost = 1
      rw [h2]
      rfl
    have hrun : chainRun icCtx n (1 :: rest) = chainRun icCtx (SuccNode icCtx n 1) rest :=
      rfl
    have hcost : chainCost icCtx n (1 :: rest) =
        (succMp icCtx n 1).cost + chainCost icCtx (SuccNode icCtx n 1) rest := rfl
    rcases ic_from1 rest (SuccNode icCtx n 1) (x - 1) rfl hss hv3 with ⟨hf, hfc⟩ | ⟨hf, hfc⟩
    · refine Or.inr (Or.inl ⟨?_, ?_⟩)
      · rw [hrun, hf]
      · rw [hcost, hc1, hfc]
        norm_num
    · refine Or.inr (Or.inr ⟨?_, ?_⟩)
      · rw [hrun, hf]
        norm_num
        ring
      · rw [hcost, hc1, hfc]
        norm_num

/-- Any valid chain from a node at state `[2]` that ends within 1/2 of
position 50 costs at least 11 — so the heuristic value 11 at `[2]` is
admissible. -/
theorem ic_adm_at2 (idxs : List ℕ) (n : Node2) (hs : n.state = [(2 : ℚ)])
    (hv : chainValid icCtx n idxs)
    (hg : state_pos_within (chainRun icCtx n idxs).state [50]
      icCtx.graph.spatial_dim (1 / 2) = true) :
    11 ≤ chainCost icCtx n idxs := by
  cases idxs with
  | nil =>
    exfalso
    have hg' : state_pos_within n.state [50] icCtx.graph.spatial_dim (1 / 2) = true := hg
    rw [hs] at hg'
    exact absurd hg' (by decide)
  | cons i rest =>
    obtain ⟨he, _, hv3⟩ := hv
    obtain ⟨hi, hj⟩ := edgeAt_nonneg_bounds icCtx.graph 4 (by decide)
      (by decide) he
    have hjn : icCtx.graph.NormIndex n.state_index = n.state_index := rfl
    rw [hjn] at hj
    have hj4 : n.state_index = 0 ∨ n.state_index = 1 ∨ n.state_index = 2 ∨
        n.state_index = 3 := by omega
    have hg' : state_pos_within (chainRun icCtx (SuccNode icCtx n i) rest).state [50]
        icCtx.graph.spatial_dim (1 / 2) = true := hg
    rcases hj4 with hj0 | hj1 | hj2 | hj3
    · -- from the start column: both branches end far from the goal
      rw [hj0] at he
      have hi12 : i = 1 ∨ i = 2 := by
        interval_cases i <;> revert he <;> first | decide | (intro _; simp)
      rcases hi12 with rfl | rfl
      · have hss : (SuccNode icCtx n 1).state = [3] := by
          show ((icCtx.graph.get_mp_between_indices 1
            (icCtx.graph.NormIndex n.state_index)).translate n.state).end_state = [3]
          rw [hj0, hs]
          decide
        exfalso
        rcases ic_from1 rest (SuccNode icCtx n 1) 3 rfl hss hv3 with ⟨hf, _⟩ | ⟨hf, _⟩ <;>
          rw [hf] at hg' <;> revert hg' <;> decide
      · have hss : (SuccNode icCtx n 2).state = [4] := by
          show ((icCtx.graph.get_mp_between_indices 2
            (icCtx.graph.NormIndex n.state_index)).translate n.state).end_state = [4]
          rw [hj0, hs]
          decide
        exfalso
        rcases ic_from2 rest (SuccNode icCtx n 2) 4 rfl hss hv3 with
          ⟨hf, _⟩ | ⟨hf, _⟩ | ⟨hf, _⟩ <;>
          rw [hf] at hg' <;> revert hg' <;> decide
    · -- from row 1 at position 2: the only continuation ends at 51: no goal
      rw [hj1] at he
      have hi3 : i = 3 := by
        interval_cases i <;> revert he <;> first | decide | (intro _; rfl)
      subst hi3
      have hss : (SuccNode icCtx n 3).state = [51] := by
        show ((icCtx.graph.get_mp_between_indices 3
          (icCtx.graph.NormIndex n.state_index)).translate n.state).end_state = [51]
        rw [hj1, hs]
        decide
      have hrest : rest = [] := ic_from3 rest (SuccNode icCtx n 3) rfl hv3
      subst hrest
      exfalso
      have hg2 : state_pos_within (SuccNode icCtx n 3).state [50]
          icCtx.graph.spatial_dim (1 / 2) = true := hg'
      rw [hss] at hg2
      exact absurd hg2 (by decide)
    · -- from row 2 at position 2: the goal-reaching continuation costs 1 + 10
      rw [hj2] at he
      have hi1 : i = 1 := by
        interval_cases i <;> revert he <;> first | decide | (intro _; rfl)
      subst hi1
      have hss : (SuccNode icCtx n 1).state = [1] := by
        show ((icCtx.graph.get_mp_between_indices 1
          (icCtx.graph.NormIndex n.state_index)).translate n.state).end_state = [1]
        rw [hj2, hs]
        decide
      have hc1 : (succMp icCtx n 1).cost = 1 := by
        show ((icCtx.graph.get_mp_between_indices 1
          (icCtx.graph.NormIndex n.state_index)).translate n.state).cost = 1
        rw [hj2]
        rfl
      have hcost : chainCost icCtx n (1 :: rest) =
          (succMp icCtx n 1).cost + chainCost icCtx (SuccNode icCtx n 1) rest := rfl
      rcases ic_from1 rest (SuccNode icCtx n 1) 1 rfl hss hv3 with ⟨hf, hfc⟩ | ⟨hf, hfc⟩
      · exfalso
        rw [hf] at hg'
        exact absurd hg' (by decide)
      · rw [hcost, hc1, hfc]
        norm_num
    · -- from the goal column: no edges at all
      rw [hj3] at he
      exfalso
      interval_cases i <;> revert he <;> decide

/-- The heuristic of `icCtx` is admissible for the goal `[50]` with threshold
1/2. -/
theorem admissible_icCtx : Admissible icCtx [50] (1 / 2) := by
  constructor
  · intro s
    show (0 : ℚ) ≤ if s = [(2 : ℚ)] then 11 else 0
    split_ifs <;> norm_num
  · intro n idxs hv hg
    show (if n.state = [(2 : ℚ)] then (11 : ℚ) else 0) ≤ chainCost icCtx n idxs
    split_ifs with hs
    · exact ic_adm_at2 idxs n hs hv hg
    · exact chainCost_nonneg icCtx costsPos_icCtx idxs n hv

/-- C1 (counterexample): with the admissible (but inconsistent) heuristic of
`icCtx`, `Search` returns the direct route of cost 13, although the valid
reachable sequence `[2, 1, 3]` (start→B→A→goal) ends within the threshold of
the goal at cost 12: the closed-set skip prevents re-expanding A after the
cheaper route to it is found, so admissibility alone does not make the
returned cost minimal. -/
theorem admissible_optimality_refuted :
    Admissible icCtx [50] (1 / 2) ∧
    pathCost (Search icCtx (fun _ => []) 20 [] [0] [50] (1 / 2) false).1 = 13 ∧
    chainValid icCtx (startNode icCtx [0]) [2, 1, 3] ∧
    state_pos_within (chainRun icCtx (startNode icCtx [0]) [2, 1, 3]).state [50]
      icCtx.graph.spatial_dim (1 / 2) = true ∧
    chainCost icCtx (startNode icCtx [0]) [2, 1, 3] = 12 :=
  ⟨admissible_icCtx, by decide,
    ⟨by decide, by decide, by decide, by decide, by decide, by decide, trivial⟩,
    by decide, by decide⟩

/-! ### Claim C4: path contiguity and anchoring -/

theorem zipWith_add_sub_cancel : ∀ (a b : List ℚ), a.length = b.length →
    List.zipWith (· + ·) b (List.zipWith (· - ·) a b) = a
  | [], [], _ => rfl
  | [], _ :: _, h => by simp at h
  | _ :: _, [], h => by simp at h
  | x :: xs, y :: ys, h => by
    show (y + (x - y)) :: List.zipWith _ ys (List.zipWith _ xs ys) = x :: xs
    rw [zipWith_add_sub_cancel xs ys (by simpa using h)]
    have : y + (x - y) = x := by ring
    rw [this]

/-- With adequate lengths, translation replaces the spatial head of the start
state by the new start's head and keeps the higher derivatives. -/
theorem translate_start_state (mp : MotionPrimitive) (s : List ℚ)
    (hms : mp.spatial_dim ≤ mp.start_state.length) (hs : mp.spatial_dim ≤ s.length) :
    (mp.translate s).start_state =
      s.take mp.spatial_dim ++ mp.start_state.drop mp.spatial_dim := by
  show List.zipWith (· + ·) (mp.start_state.take mp.spatial_dim)
      (List.zipWith (· - ·) (s.take mp.spatial_dim)
        (mp.start_state.take mp.spatial_dim)) ++
      mp.start_state.drop mp.spatial_dim = _
  rw [zipWith_add_sub_cancel (s.take mp.spatial_dim)
    (mp.start_state.take mp.spatial_dim)
    (by rw [List.length_take, List.length_take, Nat.min_eq_left hs,
      Nat.min_eq_left hms])]

/-- With adequate lengths, translation keeps the higher derivatives of the end
state. -/
theorem translate_end_drop (mp : MotionPrimitive) (s : List ℚ)
    (hms : mp.spatial_dim ≤ mp.start_state.length) (hs : mp.spatial_dim ≤ s.length)
    (he : mp.spatial_dim ≤ mp.end_state.length) :
    (mp.translate s).end_state.drop mp.spatial_dim =
      mp.end_state.drop mp.spatial_dim := by
  show (List.zipWith (· + ·) (mp.end_state.take mp.spatial_dim)
      (List.zipWith (· - ·) (s.take mp.spatial_dim)
        (mp.start_state.take mp.spatial_dim)) ++
      mp.end_state.drop mp.spatial_dim).drop mp.spatial_dim = _
  have hul : (List.zipWith (· + ·) (mp.end_state.take mp.spatial_dim)
      (List.zipWith (· - ·) (s.take mp.spatial_dim)
        (mp.start_state.take mp.spatial_dim))).length = mp.spatial_dim := by
    rw [List.length_zipWith, List.length_zipWith, List.length_take,
      List.length_take, List.length_take, Nat.min_eq_left he, Nat.min_eq_left hs,
      Nat.min_eq_left hms]
    omega
  calc (List.zipWith (· + ·) (mp.end_state.take mp.spatial_dim)
      (List.zipWith (· - ·) (s.take mp.spatial_dim)
        (mp.start_state.take mp.spatial_dim)) ++
      mp.end_state.drop mp.spatial_dim).drop mp.spatial_dim
      = (List.zipWith (· + ·) (mp.end_state.take mp.spatial_dim)
        (List.zipWith (· - ·) (s.take mp.spatial_dim)
          (mp.start_state.take mp.spatial_dim)) ++
        mp.end_state.drop mp.spatial_dim).drop
        (List.zipWith (· + ·) (mp.end_state.take mp.spatial_dim)
          (List.zipWith (· - ·) (s.take mp.spatial_dim)
            (mp.start_state.take mp.spatial_dim))).length := by rw [hul]
    _ = mp.end_state.drop mp.spatial_dim := List.drop_left _ _

/-- With adequate lengths, translation preserves the length of the end state. -/
theorem translate_end_length (mp : MotionPrimitive) (s : List ℚ) {L : ℕ}
    (hms : mp.spatial_dim ≤ mp.start_state.length) (hs : mp.spatial_dim ≤ s.length)
    (he : mp.end_state.length = L) (hL : mp.spatial_dim ≤ L) :
    (mp.translate s).end_state.length = L := by
  show (List.zipWith (· + ·) (mp.end_state.take mp.spatial_dim)
      (List.zipWith (· - ·) (s.take mp.spatial_dim)
        (mp.start_state.take mp.spatial_dim)) ++
      mp.end_state.drop mp.spatial_dim).length = L
  rw [List.length_append, List.length_zipWith, List.length_zipWith,
    List.length_take, List.length_take, List.length_take, List.length_drop,
    Nat.min_eq_left hs, Nat.min_eq_left hms, he, Nat.min_eq_left hL]
  omega

/-- `quantize` distributes over list append. -/
theorem quantize_append (a b : List ℚ) : quantize (a ++ b) = quantize a ++ quantize b := by
  unfold quantize
  simp

/-- Consecutive primitives of a path chain under the quantized equivalence. -/
def Chained (path : List MotionPrimitive) : Prop :=
  List.Chain' (fun a b => quantize a.end_state = quantize b.start_state) path

/-- Modelled from the spec (§1, §3): a well-formed motion-primitive lattice.
All states share the length `L`; every stored primitive behind an actual edge
carries the graph's spatial dimension and full-length endpoint states; and the
higher-derivative tails of the stored endpoints are determined (up to
quantization) by the lattice vertex — `tails j` for the start state of any
primitive leaving column `j`, `tails (NormIndex i)` for the end state of any
primitive entering row `i`. -/
structure WellFormedLattice (ctx : SearchContext) (L : ℕ) (tails : ℕ → List ℤ) : Prop where
  sd_le : ctx.graph.spatial_dim ≤ L
  mp_sd : ∀ i j, 0 ≤ ctx.graph.edgeAt i j →
    (ctx.graph.get_mp_between_indices i j).spatial_dim = ctx.graph.spatial_dim
  mp_start_len : ∀ i j, 0 ≤ ctx.graph.edgeAt i j →
    (ctx.graph.get_mp_between_indices i j).start_state.length = L
  mp_end_len : ∀ i j, 0 ≤ ctx.graph.edgeAt i j →
    (ctx.graph.get_mp_between_indices i j).end_state.length = L
  tail_start : ∀ i j, 0 ≤ ctx.graph.edgeAt i j →
    quantize ((ctx.graph.get_mp_between_indices i j).start_state.drop
      ctx.graph.spatial_dim) = tails j
  tail_end : ∀ i j, 0 ≤ ctx.graph.edgeAt i j →
    quantize ((ctx.graph.get_mp_between_indices i j).end_state.drop
      ctx.graph.spatial_dim) = tails (ctx.graph.NormIndex i)

/-- A node of the run is *good*: its state has the common length `L` and its
higher-derivative tail quantizes to its lattice vertex's tail. -/
def GoodNode (ctx : SearchContext) (L : ℕ) (tails : ℕ → List ℤ) (n : Node2) : Prop :=
  n.state.length = L ∧
  quantize (n.state.drop ctx.graph.spatial_dim) =
    tails (ctx.graph.NormIndex n.state_index)

/-- All pushed nodes are good. -/
def GoodPushed (ctx : SearchContext) (L : ℕ) (tails : ℕ → List ℤ)
    (st : LoopState) : Prop :=
  ∀ n ∈ st.pushed, GoodNode ctx L tails n

/-- On a well-formed lattice, the primitive the expander translates to a good
node's state starts (up to quantization) exactly at that state: the spatial
head is moved there by `translate`, and the stored higher-derivative tail
matches the node's tail through the common lattice vertex. -/
theorem succMp_start_quant {ctx : SearchContext} {L : ℕ} {tails : ℕ → List ℤ}
    (wf : WellFormedLattice ctx L tails) (p : Node2) (i : ℕ)
    (hedge : 0 ≤ ctx.graph.edgeAt i (ctx.graph.NormIndex p.state_index))
    (hg : GoodNode ctx L tails p) :
    quantize (succMp ctx p i).start_state = quantize p.state := by
  obtain ⟨hpl, hpt⟩ := hg
  have hsd := wf.mp_sd i _ hedge
  have hstart := translate_start_state
    (ctx.graph.get_mp_between_indices i (ctx.graph.NormIndex p.state_index)) p.state
    (by rw [hsd, wf.mp_start_len i _ hedge]; exact wf.sd_le)
    (by rw [hsd, hpl]; exact wf.sd_le)
  show quantize ((ctx.graph.get_mp_between_indices i
    (ctx.graph.NormIndex p.state_index)).translate p.state).start_state = quantize p.state
  rw [hstart, hsd, quantize_append, wf.tail_start i _ hedge, ← hpt,
    ← quantize_append, List.take_append_drop]

/-- Goodness is preserved along expander successors. -/
theorem goodNode_succ {ctx : SearchContext} {L : ℕ} {tails : ℕ → List ℤ}
    (wf : WellFormedLattice ctx L tails) {p n : Node2} (hsucc : IsSucc ctx p n)
    (hg : GoodNode ctx L tails p) : GoodNode ctx L tails n := by
  obtain ⟨i, rfl, hedge, _⟩ := hsucc
  obtain ⟨hpl, _⟩ := hg
  have hsd := wf.mp_sd i _ hedge
  constructor
  · show ((ctx.graph.get_mp_between_indices i
      (ctx.graph.NormIndex p.state_index)).translate p.state).end_state.length = L
    exact translate_end_length _ _
      (by rw [hsd, wf.mp_start_len i _ hedge]; exact wf.sd_le)
      (by rw [hsd, hpl]; exact wf.sd_le)
      (wf.mp_end_len i _ hedge)
      (by rw [hsd]; exact wf.sd_le)
  · show quantize (((ctx.graph.get_mp_between_indices i
      (ctx.graph.NormIndex p.state_index)).translate p.state).end_state.drop
        ctx.graph.spatial_dim) = tails (ctx.graph.NormIndex i)
    have hdrop := translate_end_drop
      (ctx.graph.get_mp_between_indices i (ctx.graph.NormIndex p.state_index)) p.state
      (by rw [hsd, wf.mp_start_len i _ hedge]; exact wf.sd_le)
      (by rw [hsd, hpl]; exact wf.sd_le)
      (by rw [hsd, wf.mp_end_len i _ hedge]; exact wf.sd_le)
    rw [hsd] at hdrop
    rw [hdrop]
    exact wf.tail_end i _ hedge

theorem goodPushed_relaxOne {ctx : SearchContext} {L : ℕ} {tails : ℕ → List ℤ}
    (wf : WellFormedLattice ctx L tails) {curr n : Node2} {st : LoopState}
    (hgc : GoodNode ctx L tails curr) (hsucc : IsSucc ctx curr n)
    (h : GoodPushed ctx L tails st) : GoodPushed ctx L tails (relaxOne curr st n) := by
  unfold relaxOne
  split_ifs with hc
  · intro m hm
    rcases List.mem_append.mp hm with hm' | hm'
    · exact h m hm'
    · rw [List.mem_singleton] at hm'
      rw [hm']
      exact goodNode_succ wf hsucc hgc
  · exact h

theorem goodPushed_relaxAll {ctx : SearchContext} {L : ℕ} {tails : ℕ → List ℤ}
    (wf : WellFormedLattice ctx L tails) (curr : Node2)
    (hgc : GoodNode ctx L tails curr) :
    ∀ (l : List Node2) (st : LoopState), (∀ n ∈ l, IsSucc ctx curr n) →
      GoodPushed ctx L tails st → GoodPushed ctx L tails (relaxAll curr st l)
  | [], _, _, h => h
  | n :: ns, st, hl, h => by
    show GoodPushed ctx L tails (relaxAll curr (relaxOne curr st n) ns)
    exact goodPushed_relaxAll wf curr hgc ns _
      (fun m hm => hl m (List.mem_cons_of_mem _ hm))
      (goodPushed_relaxOne wf hgc (hl n (List.mem_cons_self n ns)) h)

theorem goodPushed_searchLoop (ctx : SearchContext) (s0 : Node2) (e : List ℚ) (d : ℚ)
    (L : ℕ) (tails : ℕ → List ℤ) (wf : WellFormedLattice ctx L tails)
    (expf : List (List ℚ) → Node2 → ℕ → List Node2)
    (hexp : ∀ vis n k, ∀ m ∈ expf vis n k, IsSucc ctx n m)
    (hg0 : GoodNode ctx L tails s0) :
    ∀ (fuel : ℕ) (st : LoopState), InvCore ctx s0 st → GoodPushed ctx L tails st →
      GoodPushed ctx L tails (searchLoop ctx e d expf fuel st).2 := by
  intro fuel
  induction fuel with
  | zero => intro st _ h; exact h
  | succ k ih =>
    intro st hi h
    unfold searchLoop
    cases hpq : st.pq with
    | nil => exact h
    | cons curr rest =>
      dsimp only
      have hcurr : curr = s0 ∨ curr ∈ st.pushed :=
        hi.pq_src curr (by rw [hpq]; exact List.mem_cons_self _ _)
      have hrest : ∀ n ∈ rest, n = s0 ∨ n ∈ st.pushed := fun n hn =>
        hi.pq_src n (by rw [hpq]; exact List.mem_cons_of_mem _ hn)
      have hgc : GoodNode ctx L tails curr := by
        rcases hcurr with rfl | h'
        · exact hg0
        · exact h curr h'
      split_ifs with h1 h2
      · exact h
      · exact ih _ (invCore_popSkip rest hrest hi _) h
      · exact ih _
          (invCore_relaxAll curr _ _
            (List.mem_append_right _ (List.mem_singleton_self curr))
            (fun m hm => hexp _ curr _ m hm)
            (invCore_expandStep rest hcurr hrest hi _ _))
          (goodPushed_relaxAll wf curr hgc _ _ (fun m hm => hexp _ curr _ m hm) h)

/-- The C4 walk: under the invariant, on an alias-free run of a well-formed
lattice with positive edge costs, the path reconstructed from any node of the
run is quantized-chained, its first primitive starts (quantized) at the start
node's state, its last primitive ends exactly at the node's state, and an
empty reconstruction only happens at the start node's state. -/
theorem recoverPath_chained (ctx : SearchContext) (s0 : Node2) (st : LoopState)
    (L : ℕ) (tails : ℕ → List ℤ) (wf : WellFormedLattice ctx L tails)
    (inv : InvCore ctx s0 st) (hNA : AliasFree st.pushed) (hpos : costsPos ctx)
    (hpp : PushedPos st) (hs0 : s0.motion_cost = 0)
    (hg0 : GoodNode ctx L tails s0) (hgp : GoodPushed ctx L tails st) :
    ∀ (fuel : ℕ) (n : Node2), (n = s0 ∨ n ∈ st.pushed) →
      st.pushed.countP (fun m => decide (m.motion_cost < n.motion_cost)) < fuel →
      Chained (RecoverPath ctx st.hist fuel n) ∧
      (∀ mp0, (RecoverPath ctx st.hist fuel n).head? = some mp0 →
        quantize mp0.start_state = quantize s0.state) ∧
      (∀ mpl, (RecoverPath ctx st.hist fuel n).getLast? = some mpl →
        mpl.end_state = n.state) ∧
      (RecoverPath ctx st.hist fuel n = [] → n.state = s0.state) := by
  intro fuel
  induction fuel with
  | zero =>
    intro n _ hcnt
    exact absurd hcnt (Nat.not_lt_zero _)
  | succ k ih =>
    intro n hn hcnt
    by_cases h0 : n.motion_cost = 0
    · have hns : n = s0 := by
        rcases hn with rfl | h'
        · rfl
        · exact absurd h0 (ne_of_gt (hpp n h'))
      rw [recoverPath_zero_cost ctx st.hist (k + 1) n h0]
      refine ⟨List.chain'_nil, ?_, ?_, fun _ => by rw [hns]⟩
      · intro mp0 hmp0
        exact Option.noConfusion hmp0
      · intro mpl hmpl
        exact Option.noConfusion hmpl
    · have hnp : n ∈ st.pushed := by
        rcases hn with rfl | h'
        · exact absurd hs0 h0
        · exact h'
      obtain ⟨e, he, hle⟩ := inv.pushed_hist n hnp
      have hfind : histFind st.hist n.state = e := by
        unfold histFind
        rw [he]
        rfl
      obtain ⟨n', hn'p, hq', hbest, hsucc, hpexp⟩ := inv.hist_src _ e he
      obtain ⟨hstate, hidx⟩ := hNA n hnp n' hn'p (by rw [hq'])
      obtain ⟨i, hn'i, hedge, hcoll⟩ := hsucc
      have hni : n.state_index = i := by
        rw [hidx, hn'i]
        rfl
      have hgpar : GoodNode ctx L tails e.parent_node := by
        rcases inv.exp_src _ hpexp with hps0 | hppu
        · rw [hps0]
          exact hg0
        · exact hgp _ hppu
      have hGB : GetPrimitiveBetween ctx e.parent_node n = succMp ctx e.parent_node i := by
        show succMp ctx e.parent_node n.state_index = succMp ctx e.parent_node i
        rw [hni]
      have hmpend : (succMp ctx e.parent_node i).end_state = n.state := by
        calc (succMp ctx e.parent_node i).end_state
            = n'.state := by rw [hn'i]; rfl
          _ = n.state := hstate.symm
      have hmpstart : quantize (succMp ctx e.parent_node i).start_state =
          quantize e.parent_node.state :=
        succMp_start_quant wf e.parent_node i hedge hgpar
      rw [recoverPath_succ_ne ctx st.hist k n h0, hfind, hGB]
      rcases inv.exp_src _ hpexp with hps0 | hppu
      · -- the parent is the start node: one-primitive path
        have hRnil : RecoverPath ctx st.hist k e.parent_node = [] :=
          recoverPath_zero_cost ctx st.hist k e.parent_node (by rw [hps0, hs0])
        rw [hRnil, List.nil_append]
        refine ⟨List.chain'_singleton _, ?_, ?_, ?_⟩
        · intro mp0 hmp0
          rw [← Option.some_inj.mp hmp0, hmpstart, hps0]
        · intro mpl hmpl
          rw [← Option.some_inj.mp hmpl]
          exact hmpend
        · intro hcontra
          exact absurd hcontra (List.cons_ne_nil _ _)
      · -- the parent was pushed: extend its reconstruction by one primitive
        have hmpcost : 0 < (succMp ctx e.parent_node i).cost := by
          show 0 < (ctx.graph.get_mp_between_indices i
            (ctx.graph.NormIndex e.parent_node.state_index)).cost
          exact hpos _ _ hedge
        have hn'cost : n'.motion_cost = e.parent_node.motion_cost +
            (succMp ctx e.parent_node i).cost := by
          rw [hn'i]
          rfl
        have hn'le : n'.motion_cost ≤ n.motion_cost := by
          have hc : (n'.motion_cost : WithTop ℚ) ≤ (n.motion_cost : WithTop ℚ) := by
            rw [← hbest]
            exact hle
          exact_mod_cast hc
        have hplt : e.parent_node.motion_cost < n.motion_cost := by
          calc e.parent_node.motion_cost
              < e.parent_node.motion_cost + (succMp ctx e.parent_node i).cost :=
                lt_add_of_pos_right _ hmpcost
            _ = n'.motion_cost := hn'cost.symm
            _ ≤ n.motion_cost := hn'le
        have hcntp : st.pushed.countP
            (fun m => decide (m.motion_cost < e.parent_node.motion_cost)) < k := by
          have hlt := countP_parent_lt hppu hplt
          omega
        obtain ⟨ihchain, ihhead, ihlast, ihnil⟩ := ih e.parent_node (Or.inr hppu) hcntp
        refine ⟨?_, ?_, ?_, ?_⟩
        · refine List.chain'_append.mpr ⟨ihchain, List.chain'_singleton _, ?_⟩
          intro x hx y hy
          rw [Option.mem_def] at hx hy
          show quantize x.end_state = quantize y.start_state
          rw [ihlast x hx, ← Option.some_inj.mp hy]
          exact hmpstart.symm
        · intro mp0 hmp0
          by_cases hR : RecoverPath ctx st.hist k e.parent_node = []
          · rw [hR, List.nil_append] at hmp0
            rw [← Option.some_inj.mp hmp0, hmpstart, ihnil hR]
          · rw [List.head?_append_of_ne_nil _ hR] at hmp0
            exact ihhead mp0 hmp0
        · intro mpl hmpl
          rw [List.getLast?_concat] at hmpl
          rw [← Option.some_inj.mp hmpl]
          exact hmpend
        · intro hcontra
          rw [List.append_eq_nil] at hcontra
          exact absurd hcontra.2 (List.cons_ne_nil _ _)

/-- The loop-level statement of (amended) C4. -/
theorem searchLoop_chained (ctx : SearchContext) (s0 : Node2) (e : List ℚ) (d : ℚ)
    (L : ℕ) (tails : ℕ → List ℤ) (wf : WellFormedLattice ctx L tails)
    (expf : List (List ℚ) → Node2 → ℕ → List Node2)
    (hexp : ∀ vis n k, ∀ m ∈ expf vis n k, IsSucc ctx n m) (hpos : costsPos ctx)
    (fuel : ℕ) (st : LoopState) (hinv : InvCore ctx s0 st) (hpp : PushedPos st)
    (hlen : HistLen st) (hgood : GoodPushed ctx L tails st)
    (hs0 : s0.motion_cost = 0) (hg0 : GoodNode ctx L tails s0)
    (hNA : AliasFree (searchLoop ctx e d expf fuel st).2.pushed)
    (hne : (searchLoop ctx e d expf fuel st).1 ≠ []) :
    Chained (searchLoop ctx e d expf fuel st).1 ∧
    (∀ mp0, (searchLoop ctx e d expf fuel st).1.head? = some mp0 →
      quantize mp0.start_state = quantize s0.state) ∧
    ∃ endN rest, (searchLoop ctx e d expf fuel st).2.pq = endN :: rest ∧
      state_pos_within endN.state e ctx.graph.spatial_dim d = true ∧
      ∀ mpl, (searchLoop ctx e d expf fuel st).1.getLast? = some mpl →
        mpl.end_state = endN.state := by
  rcases searchLoop_result_shape ctx e d expf fuel st with hsh | ⟨curr, rest, hpq, hgoal, hpath⟩
  · exact absurd hsh hne
  · have hinvF := invCore_searchLoop ctx s0 e d expf hexp fuel st hinv
    have hppF := pushedPos_searchLoop ctx s0 e d expf hexp hpos hs0 fuel st hinv hpp
    have hlenF := histLen_searchLoop ctx e d expf fuel st hlen
    have hgoodF := goodPushed_searchLoop ctx s0 e d L tails wf expf hexp hg0 fuel st
      hinv hgood
    have hcurr := hinvF.pq_src curr (by rw [hpq]; exact List.mem_cons_self _ _)
    have hcnt : (searchLoop ctx e d expf fuel st).2.pushed.countP
        (fun m => decide (m.motion_cost < curr.motion_cost)) <
        histSize (searchLoop ctx e d expf fuel st).2.hist + 1 := by
      have h1 : (searchLoop ctx e d expf fuel st).2.pushed.countP
          (fun m => decide (m.motion_cost < curr.motion_cost)) ≤
          (searchLoop ctx e d expf fuel st).2.pushed.length :=
        List.countP_le_length _
      unfold HistLen at hlenF
      omega
    obtain ⟨hchain, hhead, hlast, _⟩ := recoverPath_chained ctx s0 _ L tails wf
      hinvF hNA hpos hppF hs0 hg0 hgoodF _ curr hcurr hcnt
    refine ⟨?_, ?_, curr, rest, hpq, hgoal, ?_⟩
    · rw [hpath]
      exact hchain
    · rw [hpath]
      exact hhead
    · rw [hpath]
      exact hlast

/-- C4 (amended): on a well-formed lattice (spatial dimension at most the
common state length `L`; stored primitives behind edges carry the graph's
spatial dimension, full-length endpoints, and per-vertex higher-derivative
tails `tails`) with positive edge costs and an alias-free run, a non-empty
path returned by `Search` chains: consecutive primitives satisfy
`quantize mp_i.end_state = quantize mp_succ.start_state`, the first primitive's
start state is quantized-equal to `start_state`, and the last primitive's end
state equals (exactly, hence also quantized-equal to) the state of the
goal-satisfying node at the head of the final queue. Without alias-freedom the
chaining fails (see the counterexample). -/
theorem search_path_chained (ctx : SearchContext) (sched : ℕ → List (ℕ × ℕ))
    (fuel : ℕ) (visited0 : List (List ℚ)) (start_state end_state : List ℚ)
    (d : ℚ) (parallel : Bool) (L : ℕ) (tails : ℕ → List ℤ)
    (wf : WellFormedLattice ctx L tails) (hpos : costsPos ctx)
    (hlen0 : start_state.length = L)
    (htail0 : quantize (start_state.drop ctx.graph.spatial_dim) =
      tails (ctx.graph.NormIndex 0))
    (hNA : AliasFree
      (Search ctx sched fuel visited0 start_state end_state d parallel).2.pushed)
    (hne : (Search ctx sched fuel visited0 start_state end_state d parallel).1 ≠ []) :
    Chained (Search ctx sched fuel visited0 start_state end_state d parallel).1 ∧
    (∀ mp0, (Search ctx sched fuel visited0 start_state end_state d
        parallel).1.head? = some mp0 →
      quantize mp0.start_state = quantize start_state) ∧
    ∃ endN rest,
      (Search ctx sched fuel visited0 start_state end_state d parallel).2.pq =
        endN :: rest ∧
      state_pos_within endN.state end_state ctx.graph.spatial_dim d = true ∧
      ∀ mpl, (Search ctx sched fuel visited0 start_state end_state d
        parallel).1.getLast? = some mpl → mpl.end_state = endN.state := by
  unfold Search at hNA hne ⊢
  by_cases h : state_pos_within start_state end_state ctx.graph.spatial_dim d = true
  · rw [if_pos h] at hne
    exact absurd rfl hne
  · rw [if_neg h] at hNA hne ⊢
    exact searchLoop_chained ctx (startNode ctx start_state) end_state d L tails wf _
      (searchExpander_isSucc ctx sched parallel) hpos fuel _
      (invCore_init ctx (startNode ctx start_state))
      (fun n hn => absurd hn (List.not_mem_nil n))
      rfl
      (fun n hn => absurd hn (List.not_mem_nil n))
      rfl ⟨hlen0, htail0⟩ hNA hne

/-- The tie graph is a well-formed lattice: all states have length 1 and the
higher-derivative tails are empty. -/
theorem wf_tieCtx : WellFormedLattice tieCtx 1 (fun _ => []) := by
  refine ⟨le_refl 1, ?_, ?_, ?_, ?_, ?_⟩ <;>
    · intro i j h
      obtain ⟨hi, hj⟩ := edgeAt_nonneg_bounds tieCtx.graph 3 (by decide) (by decide) h
      interval_cases i <;> interval_cases j <;> revert h <;> decide

/-- Witness for `search_path_chained` on the tie graph's alias-free serial
run: the returned one-primitive path chains, starts at the start state and
ends at the goal node's state. -/
theorem search_path_chained_witness :
    Chained (Search tieCtx (fun _ => []) 10 [] [0] [10] (1 / 2) false).1 ∧
    (∀ mp0, (Search tieCtx (fun _ => []) 10 [] [0] [10] (1 / 2) false).1.head? =
        some mp0 → quantize mp0.start_state = quantize [0]) ∧
    ∃ endN rest,
      (Search tieCtx (fun _ => []) 10 [] [0] [10] (1 / 2) false).2.pq =
        endN :: rest ∧
      state_pos_within endN.state [10] tieCtx.graph.spatial_dim (1 / 2) = true ∧
      ∀ mpl, (Search tieCtx (fun _ => []) 10 [] [0] [10] (1 / 2)
        false).1.getLast? = some mpl → mpl.end_state = endN.state :=
  search_path_chained tieCtx (fun _ => []) 10 [] [0] [10] (1 / 2) false 1
    (fun _ => []) wf_tieCtx costsPos_tieCtx (by decide) (by decide)
    (by unfold AliasFree; decide) (by decide)

/-- C4 (counterexample): on the aliasing graph — a well-formed lattice with
empty tails — the returned three-primitive path does not chain: the second
primitive ends at position 7 while the third starts at position 5.001, and
`quantize [7] = [700] ≠ [500] = quantize [5.001]`. The overwritten history
entry makes `RecoverPath` splice primitives from two different parents of
quantized-aliased states. -/
theorem path_chain_refuted :
    (Search aliasCtx (fun _ => []) 20 [] [0] [9] (1 / 2) false).1.length = 3 ∧
    quantize (((Search aliasCtx (fun _ => []) 20 [] [0] [9] (1 / 2)
        false).1.getD 1 default).end_state) ≠
      quantize (((Search aliasCtx (fun _ => []) 20 [] [0] [9] (1 / 2)
        false).1.getD 2 default).start_state) := by
  exact ⟨by decide, by decide⟩

end MotionPrimitives
